import Mathlib

/-!
A verification development for the sysvista web viewer core
(`src/sysvista-web/src/lib` and `src/sysvista-web/src/hooks`).

The TypeScript functions `classifyComponents`, `detectHubs` (clustering.ts),
the edge-merging, `buildGraph` and `buildFlowGraph` cores (graph-adapter.ts),
`validate` (loader.ts and the loader test's re-implementation), `search`
(search.ts) and `traceWorkflow` (useGraphData.ts) are embedded shallowly:

* JavaScript `Map` objects are embedded as association lists with
  update-in-place-or-append semantics (`setA` / `alookup`), which preserves
  both key-lookup behaviour and the insertion-order iteration of JS maps.
* JavaScript `Set` objects are embedded as lists queried with `contains`
  (only membership is observable in the embedded code).
* String-valued JavaScript truthiness (`if (x)`) is embedded explicitly:
  `none` and `some ""` are falsy.
* JavaScript floating-point arithmetic in `detectHubs` is embedded as exact
  rational arithmetic; the comparison `degree > mean + k*Math.sqrt(variance)`
  is embedded by the equivalent sign-and-square test so the function stays
  executable, and the equivalence with the real-valued square-root form is
  proved (`exceedsThreshold_iff_real`).
* String splitting, trimming and the regex `^([A-Z][a-z]+)` are embedded as
  structural recursion over the character list of the string, mirroring the
  JavaScript operations used by the source (ASCII case conversion, as used by
  the data the viewer handles).
* Layout (dagre), rendering attributes (colors, positions) and React state
  are out of scope of the claims and are not modelled; the graph-building
  cores are embedded up to the node/edge sets they emit.
-/

namespace SysVista

/-! ## Association lists with JS `Map` semantics -/

def alookup {β : Type} (m : List (String × β)) (k : String) : Option β :=
  match m.find? (fun p => p.1 = k) with
  | some p => some p.2
  | none => none

/-- `Map.set`: update the value in place if the key is present, else append. -/
def setA {β : Type} (m : List (String × β)) (k : String) (v : β) : List (String × β) :=
  match m with
  | [] => [(k, v)]
  | p :: rest => if p.1 = k then (k, v) :: rest else p :: setA rest k v

theorem alookup_nil {β : Type} (k : String) : alookup ([] : List (String × β)) k = none := rfl

theorem alookup_cons {β : Type} (p : String × β) (m : List (String × β)) (k : String) :
    alookup (p :: m) k = if p.1 = k then some p.2 else alookup m k := by
  by_cases h : p.1 = k <;> simp [alookup, List.find?, h]

theorem alookup_setA_self {β : Type} (m : List (String × β)) (k : String) (v : β) :
    alookup (setA m k v) k = some v := by
  induction m with
  | nil => simp [setA, alookup_cons]
  | cons p rest ih =>
    by_cases h : p.1 = k
    · simp [setA, h, alookup_cons]
    · simp [setA, h, alookup_cons, ih]

theorem alookup_setA_ne {β : Type} (m : List (String × β)) (k k' : String) (v : β)
    (h : k ≠ k') : alookup (setA m k v) k' = alookup m k' := by
  induction m with
  | nil => simp [setA, alookup_cons, alookup_nil, h]
  | cons p rest ih =>
    by_cases hp : p.1 = k
    · simp [setA, hp, alookup_cons, h, hp ▸ h]
    · simp only [setA, hp, if_false, alookup_cons, ih]

theorem alookup_append_left {β : Type} (m₁ m₂ : List (String × β)) (k : String) (v : β)
    (h : alookup m₁ k = some v) : alookup (m₁ ++ m₂) k = some v := by
  induction m₁ with
  | nil => simp [alookup_nil] at h
  | cons p rest ih =>
    rw [alookup_cons] at h
    by_cases hp : p.1 = k
    · simpa [alookup_cons, hp] using h
    · simp only [hp, if_false] at h
      simpa [alookup_cons, hp] using ih h

theorem alookup_append_right {β : Type} (m₁ m₂ : List (String × β)) (k : String)
    (h : alookup m₁ k = none) : alookup (m₁ ++ m₂) k = alookup m₂ k := by
  induction m₁ with
  | nil => simp
  | cons p rest ih =>
    rw [alookup_cons] at h
    by_cases hp : p.1 = k
    · simp [hp] at h
    · simp only [hp, if_false] at h
      simpa [alookup_cons, hp] using ih h

/-- Keys are preserved by `setA`. -/
theorem keys_setA {β : Type} (m : List (String × β)) (k : String) (v : β)
    (h : alookup m k ≠ none) :
    (setA m k v).map Prod.fst = m.map Prod.fst := by
  induction m with
  | nil => simp [alookup_nil] at h
  | cons p rest ih =>
    rw [alookup_cons] at h
    by_cases hp : p.1 = k
    · simp [setA, hp]
    · simp only [hp, if_false] at h
      simp [setA, hp, ih h]

theorem mem_setA {β : Type} (m : List (String × β)) (k : String) (v : β)
    (p : String × β) (h : p ∈ setA m k v) : p = (k, v) ∨ p ∈ m := by
  induction m with
  | nil =>
    simp only [setA, List.mem_singleton] at h
    exact Or.inl h
  | cons q rest ih =>
    unfold setA at h
    by_cases hq : q.1 = k
    · rw [if_pos hq] at h
      rcases List.mem_cons.mp h with h | h
      · exact Or.inl h
      · exact Or.inr (List.mem_cons.mpr (Or.inr h))
    · rw [if_neg hq] at h
      rcases List.mem_cons.mp h with h | h
      · exact Or.inr (List.mem_cons.mpr (Or.inl h))
      · rcases ih h with h | h
        · exact Or.inl h
        · exact Or.inr (List.mem_cons.mpr (Or.inr h))

theorem alookup_eq_none_iff {β : Type} (m : List (String × β)) (k : String) :
    alookup m k = none ↔ k ∉ m.map Prod.fst := by
  induction m with
  | nil => simp [alookup_nil]
  | cons p rest ih =>
    rw [alookup_cons]
    by_cases hp : p.1 = k
    · simp [hp]
    · simp only [hp, if_false, List.map_cons, List.mem_cons, ih]
      constructor
      · intro h hk
        rcases hk with hk | hk
        · exact hp hk.symm
        · exact h hk
      · intro h hk; exact h (Or.inr hk)

/-! ## Schema data model (types/schema.ts), restricted to the fields read by
the embedded functions. -/

inductive ComponentKind
  | model
  | service
  | transport
  | transform
deriving DecidableEq, Repr

structure SourceLocation where
  file : String
deriving DecidableEq, Repr

structure DetectedComponent where
  id : String
  name : String
  kind : ComponentKind
  source : SourceLocation
  http_path : Option String := none
deriving DecidableEq, Repr

structure DetectedEdge where
  from_id : String
  to_id : String
  label : Option String := none
  payload_type : Option String := none
deriving DecidableEq, Repr

structure SysVistaOutput where
  components : List DetectedComponent
  edges : List DetectedEdge
deriving DecidableEq, Repr

/-- JS truthiness of an optional string: `undefined` and `""` are falsy. -/
def strTruthy : Option String → Bool
  | none => false
  | some s => !s.isEmpty

/-! ## clustering.ts: classifyComponents -/

/-- `String.prototype.split(sep)` for a single-character separator, on the
character list: `"" ↦ [""]`, `"/a" ↦ ["", "a"]`, `"a/b" ↦ ["a", "b"]`. -/
def splitChar (sep : Char) (l : List Char) : List (List Char) :=
  l.foldr
    (fun ch acc =>
      match acc with
      | [] => [[ch]]
      | g :: rest => if ch = sep then [] :: g :: rest else (ch :: g) :: rest)
    [[]]

def isUpperAscii (c : Char) : Bool := 65 ≤ c.toNat && c.toNat ≤ 90

def isLowerAscii (c : Char) : Bool := 97 ≤ c.toNat && c.toNat ≤ 122

def toUpperAscii (c : Char) : Char := if isLowerAscii c then Char.ofNat (c.toNat - 32) else c

/-- A meaningful http path segment: non-empty and not a parameter placeholder
(`s && !s.startsWith("{") && !s.startsWith(":")`). -/
def meaningfulSeg (s : List Char) : Bool :=
  match s with
  | [] => false
  | c :: _ => !(c == '{') && !(c == ':')

/-- `seg.charAt(0).toUpperCase() + seg.slice(1)`. -/
def titleCaseSeg (s : List Char) : List Char :=
  match s with
  | [] => []
  | c :: rest => toUpperAscii c :: rest

/-- First meaningful segment of an http path, per classifyComponents lines 21-27. -/
def firstMeaningfulSeg (path : String) : Option (List Char) :=
  ((splitChar '/' path.data).filter meaningfulSeg).head?

/-- The regex match `^([A-Z][a-z]+)`: a leading uppercase ASCII letter followed
by one or more lowercase ASCII letters. -/
def leadingCapWord (l : List Char) : Option (List Char) :=
  match l with
  | [] => none
  | c :: rest =>
    if isUpperAscii c then
      match rest.takeWhile isLowerAscii with
      | [] => none
      | lows => some (c :: lows)
    else none

/-- `parts[parts.length - 2]` of `file.split("/")` when `parts.length >= 2`. -/
def parentDirSeg (file : String) : Option String :=
  match (splitChar '/' file.data).reverse with
  | _ :: parent :: _ => some (String.mk parent)
  | _ => none

/-- The transport branch of classifyComponents (lines 19-28): a transport with
a truthy http_path whose first meaningful segment is title-cased. -/
def transportPathLabel (c : DetectedComponent) : Option String :=
  if c.kind = ComponentKind.transport ∧ strTruthy c.http_path = true then
    match c.http_path with
    | some p => (firstMeaningfulSeg p).map (fun s => String.mk (titleCaseSeg s))
    | none => none
  else none

/-- The name branch of classifyComponents (lines 30-36): leading capitalized
word of the name for model/transform/service kinds. -/
def nameWordLabel (c : DetectedComponent) : Option String :=
  if c.kind = ComponentKind.model ∨ c.kind = ComponentKind.transform
      ∨ c.kind = ComponentKind.service then
    (leadingCapWord c.name.data).map String.mk
  else none

/-- The per-component labeling of classifyComponents lines 16-46, with the
sequential nullable `cluster` accumulator of the source. -/
def classifyOne (c : DetectedComponent) : String :=
  let cluster1 := transportPathLabel c
  let cluster2 :=
    match cluster1 with
    | some l => some l
    | none => nameWordLabel c
  let cluster3 :=
    match cluster2 with
    | some l => some l
    | none => parentDirSeg c.source.file
  cluster3.getD "Other"

/-- The pre-fold cluster map of classifyComponents (the `clusterMap` local of
lines 16-47): each component id mapped to its per-component label. -/
def clusterMapOf (components : List DetectedComponent) : List (String × String) :=
  components.foldl (fun m c => setA m c.id (classifyOne c)) []

/-- clustering.ts classifyComponents: label every component, then fold labels
used by fewer than 3 components into "Other". -/
def classifyComponents (components : List DetectedComponent) : List (String × String) :=
  (clusterMapOf components).map
    (fun p =>
      (p.1, if (clusterMapOf components).countP (fun q => q.2 = p.2) < 3 then "Other" else p.2))

/-! ## clustering.ts: detectHubs -/

inductive HubTier
  | high
  | medium
  | normal
deriving DecidableEq, Repr

structure HubInfo where
  tier : HubTier
  degree : Nat
deriving DecidableEq, Repr

/-- One edge of the degree loop of detectHubs lines 82-85: add 1 to both
endpoints (`?? 0` for unseen keys). -/
def degreeStep (m : List (String × Nat)) (e : DetectedEdge) : List (String × Nat) :=
  let m1 := setA m e.from_id ((alookup m e.from_id).getD 0 + 1)
  setA m1 e.to_id ((alookup m1 e.to_id).getD 0 + 1)

/-- The degree map of detectHubs lines 78-85: initialize every component id to
0, then count both endpoints of every edge. -/
def degreeMapOf (components : List DetectedComponent) (edges : List DetectedEdge) :
    List (String × Nat) :=
  edges.foldl degreeStep (components.foldl (fun m c => setA m c.id 0) [])

def meanQ (ds : List Nat) : ℚ := (ds.map (fun d : ℕ => (d : ℚ))).sum / ds.length

def varQ (ds : List Nat) : ℚ :=
  (ds.map (fun d : ℕ => ((d : ℚ) - meanQ ds) ^ 2)).sum / ds.length

/-- The comparison `degree > mean + k * Math.sqrt(variance)` of detectHubs,
embedded by the equivalent sign-and-square test with denominators cleared, so
that it stays executable by kernel reduction; `exceedsThreshold_iff_real`
proves it equal to the square-root form over the reals:
with `n = ds.length`, `s = ds.sum`, `a = n*d - s` and
`t = Σ (n*di - s)^2` one has
`d > mean + k*sqrt(var)  ↔  0 < a ∧ k^2 * t < a^2 * n`. -/
def devSqSum (ds : List Nat) : ℤ :=
  (ds.map
    (fun di : ℕ =>
      ((ds.length : ℤ) * di - (ds.sum : ℤ)) * ((ds.length : ℤ) * di - (ds.sum : ℤ)))).sum

def exceedsThreshold (d : Nat) (ds : List Nat) (k : Nat) : Bool :=
  let a : ℤ := (ds.length : ℤ) * d - (ds.sum : ℤ)
  decide (0 < a) && decide ((k : ℤ) * k * devSqSum ds < a * a * ds.length)

/-- clustering.ts detectHubs lines 74-109. -/
def detectHubs (components : List DetectedComponent) (edges : List DetectedEdge) :
    List (String × HubInfo) :=
  let dm := degreeMapOf components edges
  if dm.length = 0 then []
  else
    let ds := dm.map Prod.snd
    dm.map
      (fun p =>
        (p.1,
          { tier :=
              if exceedsThreshold p.2 ds 2 then HubTier.high
              else if exceedsThreshold p.2 ds 1 then HubTier.medium
              else HubTier.normal,
            degree := p.2 }))

/-! ## graph-adapter.ts: edge merging (buildGraph lines 120-136,
buildFlowGraph lines 320-337 — the two loops are identical) -/

structure MergedEdge where
  from_id : String
  to_id : String
  labels : List String
  payload_type : Option String
deriving DecidableEq, Repr

/-- The dedup key `` `${e.from_id}->${e.to_id}` ``. -/
def edgeKey (e : DetectedEdge) : String := e.from_id ++ "->" ++ e.to_id

/-- The else-branch of the merge loop: a fresh map entry. -/
def initMerged (e : DetectedEdge) : MergedEdge :=
  { from_id := e.from_id
    to_id := e.to_id
    labels := match e.label with
      | some l => if l.isEmpty then [] else [l]
      | none => []
    payload_type := e.payload_type }

/-- `if (e.label && !existing.labels.includes(e.label)) existing.labels.push(e.label)`. -/
def mergeLabelStep (m : MergedEdge) (e : DetectedEdge) : MergedEdge :=
  match e.label with
  | some l =>
    if !l.isEmpty && !(m.labels.contains l) then { m with labels := m.labels ++ [l] } else m
  | none => m

/-- `if (e.payload_type && !existing.payload_type) existing.payload_type = e.payload_type`. -/
def mergePayloadStep (m : MergedEdge) (e : DetectedEdge) : MergedEdge :=
  match e.payload_type with
  | some p =>
    if !p.isEmpty && !(strTruthy m.payload_type) then { m with payload_type := some p }
    else m
  | none => m

/-- The existing-entry branch of the merge loop: push an unseen truthy label,
adopt a truthy payload_type if none is held yet. -/
def mergeInto (m : MergedEdge) (e : DetectedEdge) : MergedEdge :=
  mergePayloadStep (mergeLabelStep m e) e

def mergeStep (m : List (String × MergedEdge)) (e : DetectedEdge) :
    List (String × MergedEdge) :=
  match alookup m (edgeKey e) with
  | some ex => setA m (edgeKey e) (mergeInto ex e)
  | none => m ++ [(edgeKey e, initMerged e)]

/-- `uniqueEdges = [...edgeMap.values()]` after the merge loop. -/
def mergeEdges (es : List DetectedEdge) : List MergedEdge :=
  (es.foldl mergeStep []).map Prod.snd

/-! ## graph-adapter.ts: buildGraph and buildFlowGraph cores
(layout and styling are not modelled; the claims concern the component/edge
sets and the analytics inputs) -/

def FLOW_LABELS : List String :=
  ["handles", "persists", "transforms", "consumes", "produces", "calls", "dispatches"]

/-- `e.label && FLOW_LABELS.has(e.label)`. -/
def isFlowEdge (e : DetectedEdge) : Bool :=
  match e.label with
  | some l => !l.isEmpty && FLOW_LABELS.contains l
  | none => false

/-- buildGraph line 111: components of active kinds. -/
def bgComponents (data : SysVistaOutput) (activeKinds : List ComponentKind) :
    List DetectedComponent :=
  data.components.filter (fun c => activeKinds.contains c.kind)

/-- buildGraph line 116: the raw (pre-merge) edges between visible components. -/
def bgRawEdges (data : SysVistaOutput) (activeKinds : List ComponentKind) :
    List DetectedEdge :=
  let visibleIds := (bgComponents data activeKinds).map DetectedComponent.id
  data.edges.filter (fun e => visibleIds.contains e.from_id && visibleIds.contains e.to_id)

/-- buildGraph line 136: the merged `uniqueEdges`. -/
def bgUniqueEdges (data : SysVistaOutput) (activeKinds : List ComponentKind) :
    List MergedEdge :=
  mergeEdges (bgRawEdges data activeKinds)

/-- buildGraph line 140: `detectHubs(filteredComponents, filteredEdges)` —
note the source passes the raw filtered edges, not `uniqueEdges`. -/
def bgHubs (data : SysVistaOutput) (activeKinds : List ComponentKind) :
    List (String × HubInfo) :=
  detectHubs (bgComponents data activeKinds) (bgRawEdges data activeKinds)

/-- Count of merged edges incident to an id, either direction. -/
def mergedIncidence (ms : List MergedEdge) (cid : String) : Nat :=
  ms.countP (fun m => m.from_id = cid) + ms.countP (fun m => m.to_id = cid)

/-- Count of raw edges incident to an id, either direction. -/
def rawIncidence (es : List DetectedEdge) (cid : String) : Nat :=
  es.countP (fun e => e.from_id = cid) + es.countP (fun e => e.to_id = cid)

/-- buildFlowGraph line 304: flow-labeled edges of the document. -/
def bfFlowEdges (data : SysVistaOutput) : List DetectedEdge :=
  data.edges.filter isFlowEdge

/-- buildFlowGraph lines 309-313: ids touched by a flow edge. -/
def bfFlowNodeIds (data : SysVistaOutput) : List String :=
  (bfFlowEdges data).foldr (fun e acc => e.from_id :: e.to_id :: acc) []

/-- buildFlowGraph line 315: active-kind components touched by a flow edge. -/
def bfComponents (data : SysVistaOutput) (activeKinds : List ComponentKind) :
    List DetectedComponent :=
  data.components.filter
    (fun c => activeKinds.contains c.kind && (bfFlowNodeIds data).contains c.id)

def bfVisibleIds (data : SysVistaOutput) (activeKinds : List ComponentKind) : List String :=
  (bfComponents data activeKinds).map DetectedComponent.id

/-- The flow edges surviving the `continue` guard of the merge loop
(both endpoints visible). -/
def bfVisEdges (data : SysVistaOutput) (activeKinds : List ComponentKind) :
    List DetectedEdge :=
  (bfFlowEdges data).filter
    (fun e =>
      (bfVisibleIds data activeKinds).contains e.from_id &&
        (bfVisibleIds data activeKinds).contains e.to_id)

/-- buildFlowGraph line 337: the merged `uniqueEdges` of the flow view. -/
def bfUniqueEdges (data : SysVistaOutput) (activeKinds : List ComponentKind) :
    List MergedEdge :=
  mergeEdges (bfVisEdges data activeKinds)

/-- buildFlowGraph lines 340-345: nodes re-filtered to those with a visible
merged edge. -/
def bfNodes (data : SysVistaOutput) (activeKinds : List ComponentKind) :
    List DetectedComponent :=
  let connectedIds :=
    (bfUniqueEdges data activeKinds).foldr (fun m acc => m.from_id :: m.to_id :: acc) []
  (bfComponents data activeKinds).filter (fun c => connectedIds.contains c.id)

/-! ## loader.ts: validate (lines 3-16), over parsed JSON values -/

inductive Json where
  | null : Json
  | bool : Bool → Json
  | num : Int → Json
  | str : String → Json
  | arr : List Json → Json
  | obj : List (String × Json) → Json

/-- JS truthiness of a parsed JSON value (`!obj`). -/
def jsTruthy : Json → Bool
  | Json.null => false
  | Json.bool b => b
  | Json.num n => n != 0
  | Json.str s => !s.isEmpty
  | Json.arr _ => true
  | Json.obj _ => true

/-- `typeof x === "object"` for a parsed JSON value (null and arrays included). -/
def typeofIsObject : Json → Bool
  | Json.null => true
  | Json.arr _ => true
  | Json.obj _ => true
  | _ => false

/-- JS property access on a parsed JSON value; duplicate keys resolve to the
last binding, as in `JSON.parse`. Non-objects have no own string properties
of interest here. -/
def getProp (j : Json) (k : String) : Option Json :=
  match j with
  | Json.obj fs =>
    match fs.reverse.find? (fun p => p.1 = k) with
    | some p => some p.2
    | none => none
  | _ => none

/-- `Array.isArray(obj.k)`. -/
def isArrayProp (j : Json) (k : String) : Bool :=
  match getProp j k with
  | some (Json.arr _) => true
  | _ => false

def invalidMsg : String := "Invalid SysVista JSON: missing required fields (components, edges)"

/-- loader.ts validate (lines 3-16): throw on a falsy/non-object value or
missing array fields, otherwise return the value unchanged. -/
def validate (j : Json) : Except String Json :=
  if !(jsTruthy j) || !(typeofIsObject j) || !(isArrayProp j "components")
      || !(isArrayProp j "edges") then
    Except.error invalidMsg
  else Except.ok j

/-- JS property assignment `obj.k = v` on a JSON object: overwrite the
binding if present, else append. -/
def setProp (j : Json) (k : String) (v : Json) : Json :=
  match j with
  | Json.obj fs =>
    if fs.any (fun p => p.1 = k) then
      Json.obj (fs.map (fun p => if p.1 = k then (k, v) else p))
    else Json.obj (fs ++ [(k, v)])
  | _ => j

/-- The loader test's re-implementation of validate
(src/unnamed/part_007 lines 5-21): same required-field check, then default a
missing `workflows` array to `[]`. -/
def validateCompat (j : Json) : Except String Json :=
  if !(jsTruthy j) || !(typeofIsObject j) || !(isArrayProp j "components")
      || !(isArrayProp j "edges") then
    Except.error invalidMsg
  else if !(isArrayProp j "workflows") then Except.ok (setProp j "workflows" (Json.arr []))
  else Except.ok j

/-! ## search.ts: initSearch / search -/

/-- JS `String.prototype.trim()` (ASCII whitespace suffices for the claims). -/
def jsTrim (s : String) : String :=
  let ws : Char → Bool := fun c => c == ' ' || c == '\t' || c == '\n' || c == '\r'
  String.mk (((s.data.dropWhile ws).reverse.dropWhile ws).reverse)

/-- The fuzzy index built by the external fuse.js library, abstracted as a
ranking function from a query to the matching components in score order; the
`limit` option of `Fuse.search` is embedded from the library's documented
contract (at most `limit` results) as a `take`. -/
structure FuseIndex where
  rank : String → List DetectedComponent

/-- The module-level `fuse` state after `initSearch` has or has not run. -/
def searchModel (fuse : Option FuseIndex) (query : String) : List DetectedComponent :=
  match fuse with
  | none => []
  | some f => if (jsTrim query).isEmpty then [] else (f.rank query).take 20

/-! ## useGraphData.ts: traceWorkflow (lines 99-135) -/

structure TraceState where
  nodeIds : List String
  edgeIds : List Nat
  queue : List String
deriving DecidableEq, Repr

/-- `Set.add` on the edge-id set (membership-preserving list embedding). -/
def addEdgeId (ids : List Nat) (i : Nat) : List Nat :=
  if ids.contains i then ids else ids ++ [i]

/-- The neighbor picked by the loop body for the current node on one edge
(`from`-side first, else `to`-side). -/
def traceNeighbor (current : String) (e : DetectedEdge) : Option String :=
  if e.from_id = current then some e.to_id
  else if e.to_id = current then some e.from_id
  else none

/-- One edge visit of the inner `for` loop: a truthy unvisited neighbor is
discovered (node, edge, queue push); a truthy visited neighbor still
contributes its edge. A falsy (empty-string) neighbor is skipped. -/
def traceVisit (current : String) (st : TraceState) (i : Nat) (e : DetectedEdge) :
    TraceState :=
  match traceNeighbor current e with
  | some nb =>
    if nb.isEmpty then st
    else if st.nodeIds.contains nb then { st with edgeIds := addEdgeId st.edgeIds i }
    else
      { nodeIds := st.nodeIds ++ [nb]
        edgeIds := addEdgeId st.edgeIds i
        queue := st.queue ++ [nb] }
  | none => st

/-- The inner `for (let i = 0; ...)` loop over the flow edges, with `i`
starting at `start`. -/
def traceScanFrom (current : String) (st : TraceState) (start : Nat)
    (es : List DetectedEdge) : TraceState :=
  match es with
  | [] => st
  | e :: rest => traceScanFrom current (traceVisit current st start e) (start + 1) rest

def traceScan (flowEdges : List DetectedEdge) (current : String) (st : TraceState) :
    TraceState :=
  traceScanFrom current st 0 flowEdges

/-- The `while (queue.length > 0)` loop, with fuel; `traceFuel` below is a
proven-sufficient bound, so the fuel-out branch is never taken on the actual
call (`traceLoop_fuel_irrelevant`). -/
def traceLoop (flowEdges : List DetectedEdge) : Nat → TraceState → TraceState
  | 0, st => st
  | fuel + 1, st =>
    match st.queue with
    | [] => st
    | current :: rest =>
      traceLoop flowEdges fuel (traceScan flowEdges current { st with queue := rest })

def traceFuel (flowEdges : List DetectedEdge) : Nat := 2 * flowEdges.length + 2

/-- useGraphData.ts traceWorkflow: BFS over the flow-edge subgraph from a
start id. -/
def traceWorkflow (schema : SysVistaOutput) (componentId : String) : TraceState :=
  let flowEdges := schema.edges.filter isFlowEdge
  traceLoop flowEdges (traceFuel flowEdges)
    { nodeIds := [componentId], edgeIds := [], queue := [componentId] }

/-- Undirected adjacency in the flow-edge subgraph. -/
def flowAdj (es : List DetectedEdge) (u v : String) : Prop :=
  ∃ e ∈ es, (e.from_id = u ∧ e.to_id = v) ∨ (e.to_id = u ∧ e.from_id = v)

/-- Connectivity (reflexive-transitive closure of `flowAdj`). -/
def flowReach (es : List DetectedEdge) : String → String → Prop :=
  Relation.ReflTransGen (flowAdj es)

/-! ## Theorems -/

/-- C9: loader.ts validate throws the descriptive missing-fields error exactly
when the parsed value is null, not an object, or lacks an array-valued
`components` or `edges` field; every other input is returned unchanged with
no validation of the array elements. -/
theorem validate_spec (j : Json) :
    (validate j = Except.error invalidMsg ↔
      j = Json.null ∨ (∀ fs, j ≠ Json.obj fs) ∨
        isArrayProp j "components" = false ∨ isArrayProp j "edges" = false) ∧
    (validate j ≠ Except.error invalidMsg → validate j = Except.ok j) := by
  constructor
  · cases j with
    | null => simp [validate, jsTruthy]
    | bool b =>
      cases b <;> simp [validate, jsTruthy, typeofIsObject]
    | num n =>
      by_cases hn : n = 0 <;> simp [validate, jsTruthy, typeofIsObject, hn, bne]
    | str s => simp [validate, jsTruthy, typeofIsObject]
    | arr xs => simp [validate, jsTruthy, typeofIsObject, isArrayProp, getProp]
    | obj fs =>
      simp only [validate, jsTruthy, typeofIsObject, Bool.not_true, Bool.false_or]
      by_cases hc : isArrayProp (Json.obj fs) "components" = true <;>
        by_cases he : isArrayProp (Json.obj fs) "edges" = true <;>
          simp_all [validate]
  · intro h
    unfold validate at h ⊢
    by_cases hcond :
        (!jsTruthy j || !typeofIsObject j || !isArrayProp j "components"
          || !isArrayProp j "edges") = true
    · exact absurd (by simp [hcond]) h
    · simp [hcond]

/-- The closed witness for C9: a minimal valid document passes through
validate unchanged. -/
theorem validate_spec_witness :
    validate (Json.obj [("components", Json.arr []), ("edges", Json.arr [])]) ≠
        Except.error invalidMsg ∧
    validate (Json.obj [("components", Json.arr []), ("edges", Json.arr [])]) =
      Except.ok (Json.obj [("components", Json.arr []), ("edges", Json.arr [])]) := by
  refine ⟨?_, ?_⟩
  · intro h
    rw [show validate (Json.obj [("components", Json.arr []), ("edges", Json.arr [])]) =
      Except.ok (Json.obj [("components", Json.arr []), ("edges", Json.arr [])]) from rfl] at h
    exact Except.noConfusion h
  · exact (validate_spec (Json.obj [("components", Json.arr []), ("edges", Json.arr [])])).2
      (by intro h
          rw [show validate (Json.obj [("components", Json.arr []), ("edges", Json.arr [])]) =
            Except.ok (Json.obj [("components", Json.arr []), ("edges", Json.arr [])]) from rfl] at h
          exact Except.noConfusion h)

/-- C2 evaluation: on an object with array `components` and `edges` but no
`workflows` field, loader.ts validate returns the document unchanged —
without a `workflows` field — whereas the loader test's own re-implementation
(part_007) defaults `workflows` to the empty array. The spec and the test
describe the defaulting; loader.ts does not perform it. -/
theorem validate_workflows_not_defaulted :
    validate (Json.obj [("components", Json.arr []), ("edges", Json.arr [])]) =
        Except.ok (Json.obj [("components", Json.arr []), ("edges", Json.arr [])]) ∧
    getProp (Json.obj [("components", Json.arr []), ("edges", Json.arr [])]) "workflows" =
        none ∧
    validateCompat (Json.obj [("components", Json.arr []), ("edges", Json.arr [])]) =
      Except.ok
        (Json.obj [("components", Json.arr []), ("edges", Json.arr []),
          ("workflows", Json.arr [])]) :=
  ⟨rfl, rfl, rfl⟩

/-- C10: search returns at most 20 components, and returns the empty list on
a whitespace-only (or empty) query or when no index has been initialized. -/
theorem search_spec (fuse : Option FuseIndex) (query : String) :
    (searchModel fuse query).length ≤ 20 ∧
    ((∀ c ∈ query.data, (c == ' ' || c == '\t' || c == '\n' || c == '\r') = true) →
      searchModel fuse query = []) ∧
    (fuse = none → searchModel fuse query = []) := by
  refine ⟨?_, ?_, ?_⟩
  · cases fuse with
    | none => simp [searchModel]
    | some f =>
      by_cases h : (jsTrim query).isEmpty
      · simp [searchModel, h]
      · simp only [searchModel, h, Bool.false_eq_true, if_false]
        exact (List.length_take _ _).le.trans (min_le_left _ _)
  · intro hws
    have hdrop : query.data.dropWhile
        (fun c => c == ' ' || c == '\t' || c == '\n' || c == '\r') = [] := by
      rw [List.dropWhile_eq_nil_iff]
      exact hws
    have htrim : jsTrim query = "" := by
      simp [jsTrim, hdrop]
    cases fuse with
    | none => simp [searchModel]
    | some f => simp [searchModel, htrim, show ("" : String).isEmpty = true from rfl]
  · intro h
    subst h
    simp [searchModel]

/-- The closed witness for C10: the whitespace query on an uninitialized
index. -/
theorem search_spec_witness :
    (searchModel none "  ").length ≤ 20 ∧
    (∀ c ∈ ("  " : String).data, (c == ' ' || c == '\t' || c == '\n' || c == '\r') = true) ∧
    searchModel none "  " = [] :=
  ⟨(search_spec none "  ").1, by decide, (search_spec none "  ").2.2 rfl⟩

/-- Three models labeled "Session", used as concrete inputs. -/
def sessionComps : List DetectedComponent :=
  [{ id := "a", name := "SessionA", kind := ComponentKind.model, source := ⟨"x/f.py"⟩ },
   { id := "b", name := "SessionB", kind := ComponentKind.model, source := ⟨"x/g.py"⟩ },
   { id := "c", name := "SessionC", kind := ComponentKind.model, source := ⟨"x/h.py"⟩ }]

/-- Three "Session" models and one lone "Widget" model: the rare label is
folded into "Other". -/
def foldComps : List DetectedComponent :=
  sessionComps ++
    [{ id := "d", name := "WidgetX", kind := ComponentKind.model, source := ⟨"x/w.py"⟩ }]

/-- C5: the pre-fold labeling rule of classifyComponents. A transport with a
truthy HTTP path whose first meaningful (non-placeholder) segment exists is
labeled by that segment title-cased; otherwise a model/transform/service
whose name starts with a capitalized word (uppercase letter followed by
lowercase letters) is labeled by that word; otherwise the parent directory
name of the source file is used; otherwise "Other". -/
theorem classifyOne_rule (c : DetectedComponent) :
    (∀ p s, c.kind = ComponentKind.transport → c.http_path = some p → p ≠ "" →
      firstMeaningfulSeg p = some s → classifyOne c = String.mk (titleCaseSeg s)) ∧
    (transportPathLabel c = none →
      (c.kind = ComponentKind.model ∨ c.kind = ComponentKind.transform ∨
        c.kind = ComponentKind.service) →
      ∀ w, leadingCapWord c.name.data = some w → classifyOne c = String.mk w) ∧
    (transportPathLabel c = none → nameWordLabel c = none →
      ∀ d, parentDirSeg c.source.file = some d → classifyOne c = d) ∧
    (transportPathLabel c = none → nameWordLabel c = none →
      parentDirSeg c.source.file = none → classifyOne c = "Other") := by
  refine ⟨?_, ?_, ?_, ?_⟩
  · intro p s hk hp hne hseg
    have htruthy : strTruthy c.http_path = true := by
      rw [hp]
      simp only [strTruthy, Bool.not_eq_true']
      rw [← Bool.not_eq_true]
      intro habs
      exact hne ((String.isEmpty_iff p).mp habs)
    have h1 : transportPathLabel c = some (String.mk (titleCaseSeg s)) := by
      unfold transportPathLabel
      rw [if_pos ⟨hk, htruthy⟩, hp]
      simp [hseg]
    simp [classifyOne, h1]
  · intro h1 hk w hw
    have h2 : nameWordLabel c = some (String.mk w) := by
      unfold nameWordLabel
      rw [if_pos hk, hw]
      rfl
    simp [classifyOne, h1, h2]
  · intro h1 h2 d hd
    simp [classifyOne, h1, h2, hd]
  · intro h1 h2 h3
    simp [classifyOne, h1, h2, h3]

/-- A transport with a parameterized path, used as a concrete input. -/
def sessionsTransport : DetectedComponent :=
  { id := "t", name := "route", kind := ComponentKind.transport,
    source := ⟨"api/r.py"⟩, http_path := some "/sessions/{id}" }

/-- The closed witness for C5: a transport labeled from its path. -/
theorem classifyOne_rule_witness :
    sessionsTransport.kind = ComponentKind.transport ∧
    ("/sessions/{id}" : String) ≠ "" ∧
    firstMeaningfulSeg "/sessions/{id}" = some "sessions".data ∧
    classifyOne sessionsTransport = String.mk (titleCaseSeg "sessions".data) :=
  ⟨rfl, by decide, by decide,
    (classifyOne_rule sessionsTransport).1 "/sessions/{id}" "sessions".data rfl rfl
      (by decide) (by decide)⟩

/-! ## Lemmas on the edge merge -/

/-- The truthy label contributed by a raw edge. -/
def truthyLabelOf (e : DetectedEdge) : Option String :=
  match e.label with
  | some l => if l.isEmpty then none else some l
  | none => none

def truthyLabels (es : List DetectedEdge) : List String := es.filterMap truthyLabelOf

/-- The truthy payload contributed by a raw edge. -/
def truthyPayloadOf (e : DetectedEdge) : Option String :=
  match e.payload_type with
  | some p => if p.isEmpty then none else some p
  | none => none

def firstTruthyPayload (es : List DetectedEdge) : Option String :=
  es.findSome? truthyPayloadOf

theorem truthyPayloadOf_eq_some (e : DetectedEdge) (p : String)
    (h : truthyPayloadOf e = some p) : e.payload_type = some p ∧ p.isEmpty = false := by
  cases he : e.payload_type with
  | none => simp [truthyPayloadOf, he] at h
  | some q =>
    by_cases hq : q.isEmpty = true
    · simp [truthyPayloadOf, he, hq] at h
    · simp only [truthyPayloadOf, he, hq, Bool.false_eq_true, if_false,
        Option.some.injEq] at h
      subst h
      exact ⟨rfl, by simpa using hq⟩

theorem truthyLabelOf_eq_some (e : DetectedEdge) (l : String)
    (h : truthyLabelOf e = some l) : e.label = some l ∧ l.isEmpty = false := by
  cases he : e.label with
  | none => simp [truthyLabelOf, he] at h
  | some q =>
    by_cases hq : q.isEmpty = true
    · simp [truthyLabelOf, he, hq] at h
    · simp only [truthyLabelOf, he, hq, Bool.false_eq_true, if_false,
        Option.some.injEq] at h
      subst h
      exact ⟨rfl, by simpa using hq⟩

def pushLabel (acc : List String) (l : String) : List String :=
  if acc.contains l then acc else acc ++ [l]

/-- First-occurrence-order deduplication. -/
def dedupFirst (ls : List String) : List String := ls.foldl pushLabel []

/-- The merge result of one key group (first edge creates the entry, the rest
merge into it). -/
def mergeGroup : List DetectedEdge → Option MergedEdge
  | [] => none
  | e :: rest => some (rest.foldl mergeInto (initMerged e))

theorem mergeLabelStep_from_id (m : MergedEdge) (e : DetectedEdge) :
    (mergeLabelStep m e).from_id = m.from_id := by
  unfold mergeLabelStep
  cases h : e.label with
  | none => rfl
  | some l =>
    show (if (!l.isEmpty && !m.labels.contains l) = true then ({ m with labels := m.labels ++ [l] } : MergedEdge) else m).from_id = m.from_id
    split <;> rfl

theorem mergeLabelStep_to_id (m : MergedEdge) (e : DetectedEdge) :
    (mergeLabelStep m e).to_id = m.to_id := by
  unfold mergeLabelStep
  cases h : e.label with
  | none => rfl
  | some l =>
    show (if (!l.isEmpty && !m.labels.contains l) = true then ({ m with labels := m.labels ++ [l] } : MergedEdge) else m).to_id = m.to_id
    split <;> rfl

theorem mergeLabelStep_payload (m : MergedEdge) (e : DetectedEdge) :
    (mergeLabelStep m e).payload_type = m.payload_type := by
  unfold mergeLabelStep
  cases h : e.label with
  | none => rfl
  | some l =>
    show (if (!l.isEmpty && !m.labels.contains l) = true then ({ m with labels := m.labels ++ [l] } : MergedEdge) else m).payload_type = m.payload_type
    split <;> rfl

theorem mergePayloadStep_from_id (m : MergedEdge) (e : DetectedEdge) :
    (mergePayloadStep m e).from_id = m.from_id := by
  unfold mergePayloadStep
  cases h : e.payload_type with
  | none => rfl
  | some l =>
    show (if (!l.isEmpty && !strTruthy m.payload_type) = true then ({ m with payload_type := some l } : MergedEdge) else m).from_id = m.from_id
    split <;> rfl

theorem mergePayloadStep_to_id (m : MergedEdge) (e : DetectedEdge) :
    (mergePayloadStep m e).to_id = m.to_id := by
  unfold mergePayloadStep
  cases h : e.payload_type with
  | none => rfl
  | some l =>
    show (if (!l.isEmpty && !strTruthy m.payload_type) = true then ({ m with payload_type := some l } : MergedEdge) else m).to_id = m.to_id
    split <;> rfl

theorem mergePayloadStep_labels (m : MergedEdge) (e : DetectedEdge) :
    (mergePayloadStep m e).labels = m.labels := by
  unfold mergePayloadStep
  cases h : e.payload_type with
  | none => rfl
  | some l =>
    show (if (!l.isEmpty && !strTruthy m.payload_type) = true then ({ m with payload_type := some l } : MergedEdge) else m).labels = m.labels
    split <;> rfl

theorem mergeInto_from_id (m : MergedEdge) (e : DetectedEdge) :
    (mergeInto m e).from_id = m.from_id := by
  unfold mergeInto
  rw [mergePayloadStep_from_id, mergeLabelStep_from_id]

theorem mergeInto_to_id (m : MergedEdge) (e : DetectedEdge) :
    (mergeInto m e).to_id = m.to_id := by
  unfold mergeInto
  rw [mergePayloadStep_to_id, mergeLabelStep_to_id]

theorem foldl_mergeInto_from_id (rest : List DetectedEdge) (m : MergedEdge) :
    (rest.foldl mergeInto m).from_id = m.from_id := by
  induction rest generalizing m with
  | nil => rfl
  | cons e rest ih => rw [List.foldl_cons, ih, mergeInto_from_id]

theorem foldl_mergeInto_to_id (rest : List DetectedEdge) (m : MergedEdge) :
    (rest.foldl mergeInto m).to_id = m.to_id := by
  induction rest generalizing m with
  | nil => rfl
  | cons e rest ih => rw [List.foldl_cons, ih, mergeInto_to_id]

theorem mergeInto_labels (m : MergedEdge) (e : DetectedEdge) :
    (mergeInto m e).labels =
      match truthyLabelOf e with
      | some l => pushLabel m.labels l
      | none => m.labels := by
  unfold mergeInto
  rw [mergePayloadStep_labels]
  unfold mergeLabelStep truthyLabelOf pushLabel
  cases e.label with
  | none => rfl
  | some l =>
    by_cases he : l.isEmpty = true
    · simp [he]
    · by_cases hc : l ∈ m.labels <;> simp [he, hc]

theorem mergeInto_payload (m : MergedEdge) (e : DetectedEdge) :
    (mergeInto m e).payload_type =
      if strTruthy m.payload_type then m.payload_type
      else
        match truthyPayloadOf e with
        | some p => some p
        | none => m.payload_type := by
  unfold mergeInto
  rw [show (mergePayloadStep (mergeLabelStep m e) e).payload_type =
      (mergePayloadStep { mergeLabelStep m e with } e).payload_type from rfl]
  have hbase : ∀ m1 : MergedEdge, m1.payload_type = m.payload_type →
      (mergePayloadStep m1 e).payload_type =
        if strTruthy m.payload_type then m.payload_type
        else
          match truthyPayloadOf e with
          | some p => some p
          | none => m.payload_type := by
    intro m1 h1
    unfold mergePayloadStep truthyPayloadOf
    cases e.payload_type with
    | none => by_cases hm : strTruthy m.payload_type = true <;> simp [h1, hm]
    | some p =>
      by_cases hp : p.isEmpty = true <;> by_cases hm : strTruthy m.payload_type = true <;>
        simp [h1, hp, hm]
  exact hbase _ (mergeLabelStep_payload m e)

theorem foldl_mergeInto_labels (rest : List DetectedEdge) (m : MergedEdge) :
    (rest.foldl mergeInto m).labels = (truthyLabels rest).foldl pushLabel m.labels := by
  induction rest generalizing m with
  | nil => rfl
  | cons e rest ih =>
    rw [List.foldl_cons, ih, mergeInto_labels]
    unfold truthyLabels
    cases h : truthyLabelOf e <;> simp [List.filterMap_cons, h]

theorem foldl_mergeInto_payload (rest : List DetectedEdge) (m : MergedEdge) :
    (rest.foldl mergeInto m).payload_type =
      if strTruthy m.payload_type then m.payload_type
      else
        match firstTruthyPayload rest with
        | some p => some p
        | none => m.payload_type := by
  induction rest generalizing m with
  | nil => by_cases hm : strTruthy m.payload_type <;> simp [firstTruthyPayload, hm]
  | cons e rest ih =>
    rw [List.foldl_cons, ih, mergeInto_payload]
    by_cases hm : strTruthy m.payload_type
    · cases hp : truthyPayloadOf e
      · simp [hm, firstTruthyPayload, List.findSome?_cons, hp]
      · have : strTruthy m.payload_type = true := hm
        simp [hm, firstTruthyPayload, List.findSome?_cons, hp]
    · cases hp : truthyPayloadOf e with
      | none => simp [hm, firstTruthyPayload, List.findSome?_cons, hp]
      | some p =>
        have hsp : strTruthy (some p) = true := by
          simp [strTruthy, (truthyPayloadOf_eq_some e p hp).2]
        simp [hm, firstTruthyPayload, List.findSome?_cons, hp, hsp]

/-- Characterization of the merge fold: the entry at key `k` is the merge of
the edges whose key is `k`, in input order. -/
theorem alookup_mergeFold (es : List DetectedEdge) (m0 : List (String × MergedEdge))
    (k : String) :
    alookup (es.foldl mergeStep m0) k =
      match alookup m0 k with
      | some ex => some ((es.filter (fun e => edgeKey e = k)).foldl mergeInto ex)
      | none => mergeGroup (es.filter (fun e => edgeKey e = k)) := by
  induction es generalizing m0 with
  | nil => cases h : alookup m0 k <;> simp [h, mergeGroup]
  | cons e es ih =>
    rw [List.foldl_cons, ih]
    by_cases hk : edgeKey e = k
    · subst hk
      cases h : alookup m0 (edgeKey e) with
      | some ex =>
        have hstep : mergeStep m0 e = setA m0 (edgeKey e) (mergeInto ex e) := by
          unfold mergeStep
          rw [h]
        rw [hstep, alookup_setA_self]
        simp [List.filter_cons]
      | none =>
        have hstep : mergeStep m0 e = m0 ++ [(edgeKey e, initMerged e)] := by
          unfold mergeStep
          rw [h]
        have hlook : alookup (mergeStep m0 e) (edgeKey e) = some (initMerged e) := by
          rw [hstep, alookup_append_right _ _ _ h, alookup_cons]
          simp
        rw [hlook]
        simp [List.filter_cons, mergeGroup]
    · have hlook : alookup (mergeStep m0 e) k = alookup m0 k := by
        unfold mergeStep
        cases h : alookup m0 (edgeKey e) with
        | some ex => exact alookup_setA_ne _ _ _ _ hk
        | none =>
          cases h2 : alookup m0 k with
          | some v => exact alookup_append_left _ _ _ _ h2
          | none =>
            rw [alookup_append_right _ _ _ h2, alookup_cons]
            simp [hk, alookup_nil]
      rw [hlook]
      simp [List.filter_cons, hk]

/-- Every stored entry's key is the key string of its stored endpoints, and
the keys are distinct. -/
theorem mergeFold_wf (es : List DetectedEdge) (m0 : List (String × MergedEdge))
    (hkey : ∀ p ∈ m0, p.1 = p.2.from_id ++ "->" ++ p.2.to_id)
    (hnd : (m0.map Prod.fst).Nodup) :
    (∀ p ∈ es.foldl mergeStep m0, p.1 = p.2.from_id ++ "->" ++ p.2.to_id) ∧
      ((es.foldl mergeStep m0).map Prod.fst).Nodup := by
  induction es generalizing m0 with
  | nil => exact ⟨hkey, hnd⟩
  | cons e es ih =>
    rw [List.foldl_cons]
    apply ih
    · intro p hp
      unfold mergeStep at hp
      cases h : alookup m0 (edgeKey e) with
      | some ex =>
        rw [h] at hp
        have hexm : (edgeKey e, ex) ∈ m0 := by
          unfold alookup at h
          cases hf : m0.find? (fun p => p.1 = edgeKey e) with
          | none => rw [hf] at h; exact Option.noConfusion h
          | some q =>
            rw [hf] at h
            have hq1 : q.1 = edgeKey e := by
              have := List.find?_some hf
              simpa using this
            have hq2 : q.2 = ex := by
              cases h
              rfl
            have hqm := List.mem_of_find?_eq_some hf
            rw [← hq1, ← hq2]
            exact hqm
        have hexkey : edgeKey e = ex.from_id ++ "->" ++ ex.to_id := hkey _ hexm
        have hmem := mem_setA m0 (edgeKey e) (mergeInto ex e) p hp
        rcases hmem with hmem | hmem
        · subst hmem
          simp only [mergeInto_from_id, mergeInto_to_id]
          exact hexkey
        · exact hkey _ hmem
      | none =>
        rw [h] at hp
        rcases List.mem_append.mp hp with hmem | hmem
        · exact hkey _ hmem
        · rcases List.mem_singleton.mp hmem with rfl
          rfl
    · unfold mergeStep
      cases h : alookup m0 (edgeKey e) with
      | some ex =>
        rw [keys_setA _ _ _ (by rw [h]; exact fun habs => Option.noConfusion habs)]
        exact hnd
      | none =>
        rw [List.map_append]
        simp only [List.map_cons, List.map_nil]
        rw [List.nodup_append]
        refine ⟨hnd, List.nodup_singleton _, ?_⟩
        intro a ha hb
        rcases List.mem_singleton.mp hb with rfl
        exact (alookup_eq_none_iff m0 (edgeKey e)).mp h ha

theorem mem_of_alookup_eq_some {β : Type} (m : List (String × β)) (k : String) (v : β)
    (h : alookup m k = some v) : (k, v) ∈ m := by
  unfold alookup at h
  cases hf : m.find? (fun p => p.1 = k) with
  | none => rw [hf] at h; exact Option.noConfusion h
  | some q =>
    rw [hf] at h
    have hq1 : q.1 = k := by simpa using List.find?_some hf
    have hq2 : q.2 = v := by cases h; rfl
    have hqm := List.mem_of_find?_eq_some hf
    rw [← hq1, ← hq2]
    exact hqm

theorem alookup_of_mem_nodup {β : Type} (m : List (String × β))
    (hnd : (m.map Prod.fst).Nodup) (k : String) (v : β) (h : (k, v) ∈ m) :
    alookup m k = some v := by
  induction m with
  | nil => simp at h
  | cons p rest ih =>
    rw [List.map_cons, List.nodup_cons] at hnd
    rcases List.mem_cons.mp h with h | h
    · subst h
      rw [alookup_cons]
      simp
    · rw [alookup_cons]
      have hp1 : p.1 ≠ k := by
        intro habs
        apply hnd.1
        rw [habs]
        exact List.mem_map.mpr ⟨(k, v), h, rfl⟩
      rw [if_neg hp1]
      exact ih hnd.2 h

/-- `setA` preserves distinctness of keys. -/
theorem setA_keys_nodup {β : Type} (m : List (String × β)) (k : String) (v : β)
    (hnd : (m.map Prod.fst).Nodup) : ((setA m k v).map Prod.fst).Nodup := by
  induction m with
  | nil => simp [setA]
  | cons p rest ih =>
    rw [List.map_cons, List.nodup_cons] at hnd
    by_cases hp : p.1 = k
    · rw [show setA (p :: rest) k v = (k, v) :: rest from by simp [setA, hp]]
      rw [List.map_cons, List.nodup_cons]
      exact ⟨by rw [← hp]; exact hnd.1, hnd.2⟩
    · rw [show setA (p :: rest) k v = p :: setA rest k v from by simp [setA, hp]]
      rw [List.map_cons, List.nodup_cons]
      refine ⟨?_, ih hnd.2⟩
      intro hmem
      rcases List.mem_map.mp hmem with ⟨q, hq, hq1⟩
      rcases mem_setA rest k v q hq with h1 | h1
      · exact hp (by rw [← hq1, h1])
      · exact hnd.1 (List.mem_map.mpr ⟨q, h1, hq1⟩)

/-- The pre-fold cluster map has distinct component-id keys. -/
theorem clusterMapOf_keys_nodup (comps : List DetectedComponent) :
    ((clusterMapOf comps).map Prod.fst).Nodup := by
  have h : ∀ (cs : List DetectedComponent) (m : List (String × String)),
      (m.map Prod.fst).Nodup →
      ((cs.foldl (fun acc c => setA acc c.id (classifyOne c)) m).map Prod.fst).Nodup := by
    intro cs
    induction cs with
    | nil => intro m hm; simpa using hm
    | cons c cs ih =>
      intro m hm
      rw [List.foldl_cons]
      exact ih _ (setA_keys_nodup m c.id (classifyOne c) hm)
  exact h comps [] (by simp)

/-- The fold of classifyComponents keeps the keys of the pre-fold map. -/
theorem classifyComponents_keys (comps : List DetectedComponent) :
    (classifyComponents comps).map Prod.fst = (clusterMapOf comps).map Prod.fst := by
  unfold classifyComponents
  rw [List.map_map]
  rfl

/-- C3: after the fold of classifyComponents, every cluster label other than
"Other" is either unused or assigned to at least 3 components, and every
entry of the pre-fold cluster map whose label is used by fewer than 3
components is reassigned to "Other" in the returned map. -/
theorem classify_fold_invariant (comps : List DetectedComponent) (lbl : String)
    (h : lbl ≠ "Other") :
    ((classifyComponents comps).countP (fun p => p.2 = lbl) = 0 ∨
      3 ≤ (classifyComponents comps).countP (fun p => p.2 = lbl)) ∧
    ∀ p ∈ clusterMapOf comps,
      (clusterMapOf comps).countP (fun q => q.2 = p.2) < 3 →
        alookup (classifyComponents comps) p.1 = some "Other" := by
  constructor
  · unfold classifyComponents
    set m := clusterMapOf comps with hm
    rw [List.countP_map]
    by_cases h3 : m.countP (fun q => q.2 = lbl) < 3
    · left
      rw [List.countP_eq_zero]
      intro p hp
      by_cases hpl : p.2 = lbl
      · have hcnt : m.countP (fun q => q.2 = p.2) = m.countP (fun q => q.2 = lbl) := by
          rw [hpl]
        simp only [Function.comp_apply, hcnt, h3, if_true, decide_eq_true_eq]
        exact fun hcontra => h hcontra.symm
      · by_cases hc : m.countP (fun q => q.2 = p.2) < 3 <;>
          simp only [Function.comp_apply, hc, if_true, if_false, decide_eq_true_eq]
        · exact fun hcontra => h hcontra.symm
        · exact hpl
    · right
      have hcong : m.countP
          ((fun p => decide (p.2 = lbl)) ∘ fun p =>
            (p.1, if m.countP (fun q => q.2 = p.2) < 3 then "Other" else p.2)) =
          m.countP (fun q => q.2 = lbl) := by
        apply List.countP_congr
        intro p hp
        simp only [Function.comp_apply]
        by_cases hpl : p.2 = lbl
        · have hcnt : m.countP (fun q => q.2 = p.2) = m.countP (fun q => q.2 = lbl) := by
            rw [hpl]
          simp [hcnt, h3, hpl]
        · by_cases hc : m.countP (fun q => q.2 = p.2) < 3 <;> simp [hc, hpl]
          exact fun hcontra => h hcontra.symm
      rw [hcong]
      omega
  · intro p hp h3
    have hmem : (p.1, "Other") ∈ classifyComponents comps := by
      unfold classifyComponents
      exact List.mem_map.mpr ⟨p, hp, by rw [if_pos h3]⟩
    have hnd : ((classifyComponents comps).map Prod.fst).Nodup := by
      rw [classifyComponents_keys]
      exact clusterMapOf_keys_nodup comps
    exact alookup_of_mem_nodup _ hnd _ _ hmem

/-- The closed witness for C3: three "Session" models survive the fold with
count 3, and the lone "Widget" model is reassigned to "Other". -/
theorem classify_fold_invariant_witness :
    ("Session" : String) ≠ "Other" ∧
    (((classifyComponents foldComps).countP (fun p => p.2 = "Session") = 0 ∨
      3 ≤ (classifyComponents foldComps).countP (fun p => p.2 = "Session")) ∧
     ∀ p ∈ clusterMapOf foldComps,
       (clusterMapOf foldComps).countP (fun q => q.2 = p.2) < 3 →
         alookup (classifyComponents foldComps) p.1 = some "Other") :=
  ⟨by decide, classify_fold_invariant foldComps "Session" (by decide)⟩

theorem mem_foldl_pushLabel (ls : List String) (acc : List String) (l : String) :
    l ∈ ls.foldl pushLabel acc ↔ l ∈ acc ∨ l ∈ ls := by
  induction ls generalizing acc with
  | nil => simp
  | cons x ls ih =>
    rw [List.foldl_cons, ih]
    unfold pushLabel
    by_cases hc : acc.contains x = true
    · rw [if_pos hc]
      have hx : x ∈ acc := by simpa using hc
      constructor
      · intro h
        rcases h with h | h
        · exact Or.inl h
        · exact Or.inr (List.mem_cons.mpr (Or.inr h))
      · intro h
        rcases h with h | h
        · exact Or.inl h
        · rcases List.mem_cons.mp h with h | h
          · exact Or.inl (h ▸ hx)
          · exact Or.inr h
    · rw [if_neg hc]
      simp only [List.mem_append, List.mem_singleton, List.mem_cons]
      tauto

theorem mem_dedupFirst (ls : List String) (l : String) :
    l ∈ dedupFirst ls ↔ l ∈ ls := by
  unfold dedupFirst
  rw [mem_foldl_pushLabel]
  simp

theorem truthyPayloadOf_eq_none (e : DetectedEdge) (h : truthyPayloadOf e = none) :
    strTruthy e.payload_type = false := by
  cases he : e.payload_type with
  | none => simp [strTruthy]
  | some q =>
    by_cases hq : q.isEmpty = true
    · simp [strTruthy, hq]
    · exfalso
      simp [truthyPayloadOf, he, hq] at h

theorem initMerged_labels (e : DetectedEdge) :
    (initMerged e).labels = dedupFirst (truthyLabels [e]) := by
  obtain ⟨f, t, lab, pay⟩ := e
  cases lab with
  | none => rfl
  | some l =>
    by_cases hl : l.isEmpty = true <;>
      simp [initMerged, dedupFirst, truthyLabels, truthyLabelOf, pushLabel, hl]

/-- Full characterization of a non-empty merge group. -/
theorem mergeGroup_eq_some (g : List DetectedEdge) (m : MergedEdge)
    (h : mergeGroup g = some m) :
    ∃ e0 rest, g = e0 :: rest ∧ m.from_id = e0.from_id ∧ m.to_id = e0.to_id ∧
      m.labels = dedupFirst (truthyLabels g) ∧
      (∀ p, firstTruthyPayload g = some p → m.payload_type = some p) := by
  cases g with
  | nil => exact Option.noConfusion h
  | cons e0 rest =>
    have hm : m = rest.foldl mergeInto (initMerged e0) := by
      unfold mergeGroup at h
      cases h
      rfl
    refine ⟨e0, rest, rfl, ?_, ?_, ?_, ?_⟩
    · rw [hm, foldl_mergeInto_from_id]
      rfl
    · rw [hm, foldl_mergeInto_to_id]
      rfl
    · rw [hm, foldl_mergeInto_labels, initMerged_labels]
      unfold dedupFirst
      rw [← List.foldl_append]
      have : truthyLabels [e0] ++ truthyLabels rest = truthyLabels (e0 :: rest) := by
        unfold truthyLabels
        cases ht : truthyLabelOf e0 <;> simp [List.filterMap_cons, ht]
      rw [this]
    · intro p hp
      rw [hm, foldl_mergeInto_payload]
      cases ht : truthyPayloadOf e0 with
      | some q =>
        have hfp : firstTruthyPayload (e0 :: rest) = some q := by
          simp [firstTruthyPayload, List.findSome?_cons, ht]
        rw [hfp, Option.some.injEq] at hp
        rcases truthyPayloadOf_eq_some e0 q ht with ⟨hpt, hne⟩
        have hstr : strTruthy (initMerged e0).payload_type = true := by
          show strTruthy e0.payload_type = true
          rw [hpt]
          simp [strTruthy, hne]
        rw [if_pos hstr]
        show e0.payload_type = some p
        rw [hpt, hp]
      | none =>
        have hfp : firstTruthyPayload (e0 :: rest) = firstTruthyPayload rest := by
          simp [firstTruthyPayload, List.findSome?_cons, ht]
        rw [hfp] at hp
        have hstr : strTruthy (initMerged e0).payload_type = false := by
          show strTruthy e0.payload_type = false
          exact truthyPayloadOf_eq_none e0 ht
        rw [hstr]
        simp [hp]

theorem mem_mergeEdges_iff (es : List DetectedEdge) (m : MergedEdge) :
    m ∈ mergeEdges es ↔ ∃ k, alookup (es.foldl mergeStep []) k = some m := by
  unfold mergeEdges
  constructor
  · intro h
    rcases List.mem_map.mp h with ⟨p, hp, hp2⟩
    refine ⟨p.1, ?_⟩
    have hwf := mergeFold_wf es [] (by simp) (by simp)
    rw [← hp2]
    exact alookup_of_mem_nodup _ hwf.2 p.1 p.2 hp
  · intro ⟨k, hk⟩
    exact List.mem_map.mpr ⟨(k, m), mem_of_alookup_eq_some _ _ _ hk, rfl⟩

/-- Elimination principle for a merged edge: it is the merge of the key group
of its first raw edge. -/
theorem mergeEdges_elim (es : List DetectedEdge) (m : MergedEdge)
    (h : m ∈ mergeEdges es) :
    ∃ e0, e0 ∈ es ∧ e0.from_id = m.from_id ∧ e0.to_id = m.to_id ∧
      m.labels =
        dedupFirst (truthyLabels
          (es.filter (fun e => edgeKey e = m.from_id ++ "->" ++ m.to_id))) ∧
      (∀ p,
        firstTruthyPayload
            (es.filter (fun e => edgeKey e = m.from_id ++ "->" ++ m.to_id)) = some p →
          m.payload_type = some p) := by
  rcases (mem_mergeEdges_iff es m).mp h with ⟨k, hk⟩
  rw [alookup_mergeFold es [] k] at hk
  simp only [alookup_nil] at hk
  rcases mergeGroup_eq_some _ _ hk with ⟨e0, rest, hg, hf, ht, hlab, hpay⟩
  have he0 : e0 ∈ es.filter (fun e => edgeKey e = k) := by
    rw [hg]
    exact List.mem_cons_self _ _
  have he0es : e0 ∈ es := (List.mem_filter.mp he0).1
  have he0k : edgeKey e0 = k := by
    have := (List.mem_filter.mp he0).2
    simpa using this
  have hkeq : k = m.from_id ++ "->" ++ m.to_id := by
    rw [← he0k]
    unfold edgeKey
    rw [hf, ht]
  refine ⟨e0, he0es, hf.symm, ht.symm, ?_, ?_⟩
  · rw [hlab, hkeq]
  · intro p hp
    apply hpay
    rw [hkeq]
    exact hp

/-- Introduction principle: every raw edge's truthy label survives into the
merged edge of its key group. -/
theorem mergeEdges_intro (es : List DetectedEdge) (e : DetectedEdge) (he : e ∈ es) :
    ∃ m ∈ mergeEdges es, m.from_id ++ "->" ++ m.to_id = edgeKey e ∧
      ∀ l, truthyLabelOf e = some l → l ∈ m.labels := by
  have hg : e ∈ es.filter (fun e2 => edgeKey e2 = edgeKey e) :=
    List.mem_filter.mpr ⟨he, by simp⟩
  cases hgr : es.filter (fun e2 => edgeKey e2 = edgeKey e) with
  | nil => rw [hgr] at hg; simp at hg
  | cons e0 rest =>
    have hsome : mergeGroup (es.filter (fun e2 => edgeKey e2 = edgeKey e)) =
        some (rest.foldl mergeInto (initMerged e0)) := by
      rw [hgr]
      rfl
    set m := rest.foldl mergeInto (initMerged e0) with hmdef
    have hlook : alookup (es.foldl mergeStep []) (edgeKey e) = some m := by
      rw [alookup_mergeFold es [] (edgeKey e)]
      simp only [alookup_nil]
      exact hsome
    have hmem : m ∈ mergeEdges es := (mem_mergeEdges_iff es m).mpr ⟨edgeKey e, hlook⟩
    rcases mergeGroup_eq_some _ _ hsome with ⟨e0b, restb, hgb, hf, ht, hlab, hpay⟩
    refine ⟨m, hmem, ?_, ?_⟩
    · have he0 : e0 ∈ es.filter (fun e2 => edgeKey e2 = edgeKey e) := by
        rw [hgr]
        exact List.mem_cons_self _ _
      have he0k : edgeKey e0 = edgeKey e := by
        simpa using (List.mem_filter.mp he0).2
      have he0b : e0b = e0 := by
        rw [hgr] at hgb
        injection hgb with h1 h2
        exact h1.symm
      rw [hf, ht, he0b]
      exact he0k
    · intro l hl
      rw [hlab, mem_dedupFirst]
      unfold truthyLabels
      exact List.mem_filterMap.mpr ⟨e, hg, hl⟩

theorem mergeEdges_pair_nodup (es : List DetectedEdge) :
    ((mergeEdges es).map (fun m => (m.from_id, m.to_id))).Nodup := by
  have hwf := mergeFold_wf es [] (by simp) (by simp)
  have hkeys := hwf.2
  have hmapeq : (es.foldl mergeStep []).map Prod.fst =
      ((es.foldl mergeStep []).map Prod.snd).map (fun m => m.from_id ++ "->" ++ m.to_id) := by
    rw [List.map_map]
    apply List.map_congr_left
    intro p hp
    exact hwf.1 p hp
  rw [hmapeq] at hkeys
  have hmapeq2 :
      ((es.foldl mergeStep []).map Prod.snd).map (fun m => m.from_id ++ "->" ++ m.to_id) =
        (((es.foldl mergeStep []).map Prod.snd).map (fun m => (m.from_id, m.to_id))).map
          (fun q => q.1 ++ "->" ++ q.2) := by
    simp only [List.map_map]
    rfl
  rw [hmapeq2] at hkeys
  exact hkeys.of_map

theorem countP_le_one_of_nodup {α : Type} (l : List α) (hnd : l.Nodup) (p : α → Bool)
    (hp : ∀ a b, p a = true → p b = true → a = b) : l.countP p ≤ 1 := by
  induction l with
  | nil => simp
  | cons x l ih =>
    rw [List.countP_cons, List.nodup_cons] at *
    by_cases hx : p x = true
    · have h0 : l.countP p = 0 := by
        rw [List.countP_eq_zero]
        intro a ha hpa
        exact absurd ((hp a x hpa hx) ▸ ha) hnd.1
      simp [h0, hx]
    · simp only [hx, if_false, Nat.add_zero]
      exact ih hnd.2

theorem mergeEdges_at_most_one (es : List DetectedEdge) (a b : String) :
    (mergeEdges es).countP (fun m => m.from_id = a ∧ m.to_id = b) ≤ 1 := by
  have hnd := mergeEdges_pair_nodup es
  have h1 : (mergeEdges es).countP (fun m => m.from_id = a ∧ m.to_id = b) =
      ((mergeEdges es).map (fun m => (m.from_id, m.to_id))).countP
        (fun q => q = (a, b)) := by
    rw [List.countP_map]
    apply List.countP_congr
    intro m hm
    simp [Prod.ext_iff]
  rw [h1]
  apply countP_le_one_of_nodup _ hnd
  intro x y hx hy
  have hx2 := of_decide_eq_true hx
  have hy2 := of_decide_eq_true hy
  rw [hx2, hy2]

/-- C6 (amended): provided the key function `from + "->" + to` separates the
ordered endpoint pairs occurring in the input (which holds whenever ids do
not contain the separator), the merge emits at most one edge per ordered
pair, with the pair's truthy labels in first-occurrence order, duplicates
removed, and the payload of the pair's first raw edge carrying one. -/
theorem mergeEdges_spec (es : List DetectedEdge)
    (hinj : ∀ e1 ∈ es, ∀ e2 ∈ es, edgeKey e1 = edgeKey e2 →
      e1.from_id = e2.from_id ∧ e1.to_id = e2.to_id) :
    (∀ a b, (mergeEdges es).countP (fun m => m.from_id = a ∧ m.to_id = b) ≤ 1) ∧
    (∀ m ∈ mergeEdges es,
      m.labels = dedupFirst (truthyLabels
        (es.filter (fun e => e.from_id = m.from_id ∧ e.to_id = m.to_id))) ∧
      ∀ p, firstTruthyPayload
          (es.filter (fun e => e.from_id = m.from_id ∧ e.to_id = m.to_id)) = some p →
        m.payload_type = some p) := by
  refine ⟨fun a b => mergeEdges_at_most_one es a b, ?_⟩
  intro m hm
  rcases mergeEdges_elim es m hm with ⟨e0, he0, hf, ht, hlab, hpay⟩
  have hfilter : es.filter (fun e => e.from_id = m.from_id ∧ e.to_id = m.to_id) =
      es.filter (fun e => edgeKey e = m.from_id ++ "->" ++ m.to_id) := by
    apply List.filter_congr
    intro e he
    by_cases hpair : e.from_id = m.from_id ∧ e.to_id = m.to_id
    · simp [hpair.1, hpair.2, edgeKey]
    · have hkey : ¬ (edgeKey e = m.from_id ++ "->" ++ m.to_id) := by
        intro hk
        apply hpair
        have h2 : edgeKey e = edgeKey e0 := by
          rw [hk]
          unfold edgeKey
          rw [hf, ht]
        have h3 := hinj e he e0 he0 h2
        exact ⟨h3.1.trans hf, h3.2.trans ht⟩
      simp [hpair, hkey]
  rw [hfilter]
  exact ⟨hlab, hpay⟩

/-- Two raw edges whose distinct ordered pairs collide on the merge key. -/
def collideEx : List DetectedEdge :=
  [{ from_id := "a->b", to_id := "c", label := some "imports" },
   { from_id := "a", to_id := "b->c", label := some "references" }]

/-- The counterexample to C6 as stated: with ids containing the separator,
two distinct ordered pairs fall into one merge group, so the merged edge for
pair ("a->b", "c") carries the label "references" that no raw edge of that
pair has. -/
theorem mergeEdges_counterexample :
    mergeEdges collideEx =
      [{ from_id := "a->b", to_id := "c", labels := ["imports", "references"],
         payload_type := none }] ∧
    truthyLabels (collideEx.filter (fun e => e.from_id = "a->b" ∧ e.to_id = "c")) =
      ["imports"] :=
  ⟨by decide, by decide⟩

/-- The closed witness for C6: a duplicated pair merges to one edge. -/
theorem mergeEdges_spec_witness :
    (∀ e1 ∈ [({ from_id := "a", to_id := "b", label := some "imports" } : DetectedEdge),
        { from_id := "a", to_id := "b", label := some "references" }],
      ∀ e2 ∈ [({ from_id := "a", to_id := "b", label := some "imports" } : DetectedEdge),
        { from_id := "a", to_id := "b", label := some "references" }],
      edgeKey e1 = edgeKey e2 → e1.from_id = e2.from_id ∧ e1.to_id = e2.to_id) ∧
    (mergeEdges [({ from_id := "a", to_id := "b", label := some "imports" } : DetectedEdge),
        { from_id := "a", to_id := "b", label := some "references" }]).countP
      (fun m => m.from_id = "a" ∧ m.to_id = "b") ≤ 1 :=
  ⟨by decide,
    (mergeEdges_spec _ (by decide)).1 "a" "b"⟩

/-! ## C7: the flow view -/

theorem mem_edgeEndpoints (es : List DetectedEdge) (x : String) :
    x ∈ es.foldr (fun e acc => e.from_id :: e.to_id :: acc) [] ↔
      ∃ e ∈ es, e.from_id = x ∨ e.to_id = x := by
  induction es with
  | nil => simp
  | cons e es ih =>
    simp only [List.foldr_cons, List.mem_cons, ih]
    constructor
    · intro h
      rcases h with h | h | ⟨e2, he2, h2⟩
      · exact ⟨e, Or.inl rfl, Or.inl h.symm⟩
      · exact ⟨e, Or.inl rfl, Or.inr h.symm⟩
      · exact ⟨e2, Or.inr he2, h2⟩
    · intro ⟨e2, he2, h2⟩
      rcases he2 with he2 | he2
      · subst he2
        rcases h2 with h2 | h2
        · exact Or.inl h2.symm
        · exact Or.inr (Or.inl h2.symm)
      · exact Or.inr (Or.inr ⟨e2, he2, h2⟩)

theorem mem_mergedEndpoints (ms : List MergedEdge) (x : String) :
    x ∈ ms.foldr (fun m acc => m.from_id :: m.to_id :: acc) [] ↔
      ∃ m ∈ ms, m.from_id = x ∨ m.to_id = x := by
  induction ms with
  | nil => simp
  | cons m ms ih =>
    simp only [List.foldr_cons, List.mem_cons, ih]
    constructor
    · intro h
      rcases h with h | h | ⟨m2, hm2, h2⟩
      · exact ⟨m, Or.inl rfl, Or.inl h.symm⟩
      · exact ⟨m, Or.inl rfl, Or.inr h.symm⟩
      · exact ⟨m2, Or.inr hm2, h2⟩
    · intro ⟨m2, hm2, h2⟩
      rcases hm2 with hm2 | hm2
      · subst hm2
        rcases h2 with h2 | h2
        · exact Or.inl h2.symm
        · exact Or.inr (Or.inl h2.symm)
      · exact Or.inr (Or.inr ⟨m2, hm2, h2⟩)

theorem isFlowEdge_label (e : DetectedEdge) (h : isFlowEdge e = true) :
    ∃ l, e.label = some l ∧ l.isEmpty = false ∧ l ∈ FLOW_LABELS := by
  unfold isFlowEdge at h
  cases he : e.label with
  | none => rw [he] at h; exact Bool.noConfusion h
  | some l =>
    rw [he] at h
    simp only [Bool.and_eq_true] at h
    exact ⟨l, rfl, by simpa using h.1, by simpa using h.2⟩

/-- C7: buildFlowGraph emits only flow-labeled merged edges between visible
flow-touched active components; every edge it keeps stems from a qualifying
raw edge and every qualifying raw edge's label is kept; and every emitted
node is incident to an emitted edge. -/
theorem buildFlowGraph_spec (data : SysVistaOutput) (ks : List ComponentKind) :
    (∀ m ∈ bfUniqueEdges data ks, ∀ l ∈ m.labels, l ∈ FLOW_LABELS) ∧
    (∀ m ∈ bfUniqueEdges data ks, ∃ e ∈ data.edges, isFlowEdge e = true ∧
      e.from_id ∈ bfVisibleIds data ks ∧ e.to_id ∈ bfVisibleIds data ks ∧
      e.from_id = m.from_id ∧ e.to_id = m.to_id) ∧
    (∀ e ∈ data.edges, isFlowEdge e = true →
      e.from_id ∈ bfVisibleIds data ks → e.to_id ∈ bfVisibleIds data ks →
      ∀ l, e.label = some l → ∃ m ∈ bfUniqueEdges data ks, l ∈ m.labels) ∧
    (∀ c ∈ bfNodes data ks, ∃ m ∈ bfUniqueEdges data ks,
      m.from_id = c.id ∨ m.to_id = c.id) ∧
    (∀ c ∈ bfNodes data ks, c.kind ∈ ks ∧
      ∃ e ∈ data.edges, isFlowEdge e = true ∧ (e.from_id = c.id ∨ e.to_id = c.id)) := by
  have hves : ∀ e, e ∈ bfVisEdges data ks ↔
      e ∈ data.edges ∧ isFlowEdge e = true ∧
        e.from_id ∈ bfVisibleIds data ks ∧ e.to_id ∈ bfVisibleIds data ks := by
    intro e
    unfold bfVisEdges bfFlowEdges
    simp only [List.mem_filter, Bool.and_eq_true]
    constructor
    · intro h
      exact ⟨h.1.1, h.1.2, by simpa using h.2.1, by simpa using h.2.2⟩
    · intro h
      exact ⟨⟨h.1, h.2.1⟩, by simpa using h.2.2.1, by simpa using h.2.2.2⟩
  refine ⟨?_, ?_, ?_, ?_, ?_⟩
  · intro m hm l hl
    rcases mergeEdges_elim _ m hm with ⟨e0, he0, hf, ht, hlab, hpay⟩
    rw [hlab, mem_dedupFirst] at hl
    rcases List.mem_filterMap.mp hl with ⟨e, he, hel⟩
    have he2 : e ∈ bfVisEdges data ks := (List.mem_filter.mp he).1
    have hflow : isFlowEdge e = true := ((hves e).mp he2).2.1
    rcases isFlowEdge_label e hflow with ⟨l2, hl2, hne2, hmem2⟩
    rcases truthyLabelOf_eq_some e l hel with ⟨hel2, -⟩
    rw [hel2] at hl2
    cases hl2
    exact hmem2
  · intro m hm
    rcases mergeEdges_elim _ m hm with ⟨e0, he0, hf, ht, hlab, hpay⟩
    rcases (hves e0).mp he0 with ⟨hd, hfl, hv1, hv2⟩
    exact ⟨e0, hd, hfl, hv1, hv2, hf, ht⟩
  · intro e hd hfl hv1 hv2 l hlbl
    have he : e ∈ bfVisEdges data ks := (hves e).mpr ⟨hd, hfl, hv1, hv2⟩
    rcases mergeEdges_intro _ e he with ⟨m, hm, hkey, hlab⟩
    refine ⟨m, hm, hlab l ?_⟩
    rcases isFlowEdge_label e hfl with ⟨l2, hl2, hne2, -⟩
    rw [hlbl] at hl2
    cases hl2
    simp [truthyLabelOf, hlbl, hne2]
  · intro c hc
    unfold bfNodes at hc
    have h2 := (List.mem_filter.mp hc).2
    have h3 : c.id ∈ (bfUniqueEdges data ks).foldr
        (fun m acc => m.from_id :: m.to_id :: acc) [] := by
      simpa using h2
    rcases (mem_mergedEndpoints _ _).mp h3 with ⟨m, hm, hmc⟩
    exact ⟨m, hm, hmc⟩
  · intro c hc
    unfold bfNodes at hc
    have h1 := (List.mem_filter.mp hc).1
    unfold bfComponents at h1
    rcases List.mem_filter.mp h1 with ⟨hd, hcond⟩
    simp only [Bool.and_eq_true] at hcond
    rcases hcond with ⟨hk, htouch⟩
    have htouch2 : c.id ∈ bfFlowNodeIds data := by simpa using htouch
    unfold bfFlowNodeIds at htouch2
    rcases (mem_edgeEndpoints _ _).mp htouch2 with ⟨e, he, hec⟩
    have he2 : e ∈ data.edges ∧ isFlowEdge e = true := by
      unfold bfFlowEdges at he
      exact List.mem_filter.mp he
    exact ⟨by simpa using hk, e, he2.1, he2.2, hec⟩

/-- A two-component document with one flow edge, used as a concrete input. -/
def flowDoc : SysVistaOutput :=
  { components :=
      [{ id := "a", name := "A", kind := ComponentKind.service, source := ⟨"s/a.py"⟩ },
       { id := "b", name := "B", kind := ComponentKind.model, source := ⟨"m/b.py"⟩ }],
    edges := [{ from_id := "a", to_id := "b", label := some "persists" }] }

def allKinds : List ComponentKind :=
  [ComponentKind.model, ComponentKind.service, ComponentKind.transport,
    ComponentKind.transform]

/-- The closed witness for C7: the "persists" label of the surviving merged
edge is a flow label. -/
theorem buildFlowGraph_spec_witness :
    (⟨"a", "b", ["persists"], none⟩ : MergedEdge) ∈ bfUniqueEdges flowDoc allKinds ∧
    "persists" ∈ (⟨"a", "b", ["persists"], none⟩ : MergedEdge).labels ∧
    "persists" ∈ FLOW_LABELS :=
  ⟨by decide, by decide,
    (buildFlowGraph_spec flowDoc allKinds).1 ⟨"a", "b", ["persists"], none⟩ (by decide)
      "persists" (by decide)⟩

/-! ## C1: the degrees reported by buildGraph -/

theorem alookup_degreeStep (m : List (String × Nat)) (e : DetectedEdge) (k : String) :
    (alookup (degreeStep m e) k).getD 0 =
      (alookup m k).getD 0 + (if e.from_id = k then 1 else 0)
        + (if e.to_id = k then 1 else 0) := by
  show (alookup (setA (setA m e.from_id ((alookup m e.from_id).getD 0 + 1)) e.to_id
      ((alookup (setA m e.from_id ((alookup m e.from_id).getD 0 + 1)) e.to_id).getD 0 + 1))
      k).getD 0 = _
  by_cases hf : e.from_id = k <;> by_cases ht : e.to_id = k
  · rw [hf, ht]
    simp [alookup_setA_self]
  · rw [hf]
    rw [alookup_setA_ne _ _ _ _ ht, alookup_setA_self]
    simp [ht]
  · rw [ht, alookup_setA_self, alookup_setA_ne _ _ _ _ hf]
    simp [hf]
  · rw [alookup_setA_ne _ _ _ _ ht, alookup_setA_ne _ _ _ _ hf]
    simp [hf, ht]

theorem alookup_degree_fold (es : List DetectedEdge) (m0 : List (String × Nat))
    (k : String) :
    (alookup (es.foldl degreeStep m0) k).getD 0 =
      (alookup m0 k).getD 0 + rawIncidence es k := by
  induction es generalizing m0 with
  | nil => simp [rawIncidence]
  | cons e es ih =>
    rw [List.foldl_cons, ih, alookup_degreeStep]
    unfold rawIncidence
    rw [List.countP_cons, List.countP_cons]
    by_cases hf : e.from_id = k <;> by_cases ht : e.to_id = k <;>
      simp [hf, ht] <;> omega

theorem alookup_initDegrees (comps : List DetectedComponent)
    (m0 : List (String × Nat)) (hz : ∀ p ∈ m0, p.2 = 0) (k : String) :
    (alookup (comps.foldl (fun m c => setA m c.id 0) m0) k).getD 0 = 0 := by
  have hz2 : ∀ p ∈ comps.foldl (fun m c => setA m c.id 0) m0, p.2 = 0 := by
    induction comps generalizing m0 with
    | nil => exact hz
    | cons c comps ih =>
      rw [List.foldl_cons]
      apply ih
      intro p hp
      rcases mem_setA _ _ _ _ hp with hp | hp
      · rw [hp]
      · exact hz p hp
  cases hl : alookup (comps.foldl (fun m c => setA m c.id 0) m0) k with
  | none => rfl
  | some v =>
    have := hz2 _ (mem_of_alookup_eq_some _ _ _ hl)
    simpa using this

/-- The degree stored for any id in the degree map is its raw incidence count
over the edge list handed to detectHubs. -/
theorem degreeMap_lookup (comps : List DetectedComponent) (es : List DetectedEdge)
    (k : String) (d : Nat) (h : alookup (degreeMapOf comps es) k = some d) :
    d = rawIncidence es k := by
  have h2 := alookup_degree_fold es (comps.foldl (fun m c => setA m c.id 0) []) k
  rw [alookup_initDegrees comps [] (by simp) k] at h2
  unfold degreeMapOf at h
  rw [h] at h2
  simpa using h2

theorem alookup_map_pair {β γ : Type} (m : List (String × β)) (g : String × β → γ)
    (k : String) :
    alookup (m.map (fun p => (p.1, g p))) k =
      match m.find? (fun p => p.1 = k) with
      | some p => some (g p)
      | none => none := by
  induction m with
  | nil => rfl
  | cons p rest ih =>
    by_cases hp : p.1 = k
    · have hd : (decide (p.1 = k)) = true := by simpa using hp
      rw [List.map_cons, alookup_cons, if_pos hp, List.find?_cons, hd]
    · have hd : (decide (p.1 = k)) = false := by simpa using hp
      rw [List.map_cons, alookup_cons, if_neg hp, ih, List.find?_cons, hd]

/-- The degree population over which detectHubs computes its statistics. -/
def hubDegrees (comps : List DetectedComponent) (edges : List DetectedEdge) : List Nat :=
  (degreeMapOf comps edges).map Prod.snd

/-- Elimination for a detectHubs lookup: the stored degree is the degree-map
entry and the tier is the two-threshold comparison on it. -/
theorem detectHubs_lookup (comps : List DetectedComponent) (es : List DetectedEdge)
    (cid : String) (info : HubInfo)
    (h : alookup (detectHubs comps es) cid = some info) :
    ∃ d, alookup (degreeMapOf comps es) cid = some d ∧ info.degree = d ∧
      info.tier =
        (if exceedsThreshold d (hubDegrees comps es) 2 then HubTier.high
         else if exceedsThreshold d (hubDegrees comps es) 1 then HubTier.medium
         else HubTier.normal) := by
  unfold detectHubs at h
  by_cases hlen : (degreeMapOf comps es).length = 0
  · rw [if_pos hlen] at h
    exact absurd h (by simp [alookup_nil])
  · rw [if_neg hlen] at h
    rw [alookup_map_pair] at h
    cases hf : (degreeMapOf comps es).find? (fun p => p.1 = cid) with
    | none => rw [hf] at h; exact Option.noConfusion h
    | some p =>
      rw [hf] at h
      refine ⟨p.2, ?_, ?_, ?_⟩
      · unfold alookup
        rw [hf]
      · cases h; rfl
      · cases h; rfl

/-- C1 (amended): the degree reported by buildGraph via detectHubs is the
count of raw (visibility-filtered, pre-merge) edges incident to the
component, either direction — parallel raw edges between the same ordered
pair each count, because buildGraph passes `filteredEdges`, not
`uniqueEdges`, to detectHubs. -/
theorem buildGraph_degree_raw (data : SysVistaOutput) (ks : List ComponentKind)
    (cid : String) (info : HubInfo) (h : alookup (bgHubs data ks) cid = some info) :
    info.degree = rawIncidence (bgRawEdges data ks) cid := by
  unfold bgHubs at h
  rcases detectHubs_lookup _ _ _ _ h with ⟨d, hd, hdeg, -⟩
  rw [hdeg]
  exact degreeMap_lookup _ _ _ _ hd

/-- A document with two parallel edges between the same ordered pair. -/
def dupDoc : SysVistaOutput :=
  { components :=
      [{ id := "a", name := "A", kind := ComponentKind.service, source := ⟨"s/a.py"⟩ },
       { id := "b", name := "B", kind := ComponentKind.model, source := ⟨"m/b.py"⟩ }],
    edges :=
      [{ from_id := "a", to_id := "b", label := some "imports" },
       { from_id := "a", to_id := "b", label := some "references" }] }

/-- The counterexample to C1 as stated: with two parallel raw edges a→b, the
reported degree of "a" is 2 while only 1 merged edge is incident to it. -/
theorem buildGraph_degree_counterexample :
    (alookup (bgHubs dupDoc allKinds) "a").map HubInfo.degree = some 2 ∧
    mergedIncidence (bgUniqueEdges dupDoc allKinds) "a" = 1 :=
  ⟨by decide, by decide⟩

/-- The closed witness for C1 (amended): the raw incidence of "a" is 2. -/
theorem buildGraph_degree_raw_witness :
    alookup (bgHubs dupDoc allKinds) "a" = some ⟨HubTier.normal, 2⟩ ∧
    (⟨HubTier.normal, 2⟩ : HubInfo).degree = rawIncidence (bgRawEdges dupDoc allKinds) "a" :=
  ⟨by decide, buildGraph_degree_raw dupDoc allKinds "a" ⟨HubTier.normal, 2⟩ (by decide)⟩

/-! ## C4: the hub tier thresholds -/

theorem meanQ_eq (ds : List Nat) : meanQ ds = (ds.sum : ℚ) / (ds.length : ℚ) := by
  unfold meanQ
  rw [show (ds.map (fun d : ℕ => (d : ℚ))).sum = ((ds.sum : ℕ) : ℚ) from
    (Nat.cast_list_sum ds).symm]

theorem varQ_nonneg (ds : List Nat) : 0 ≤ varQ ds := by
  unfold varQ
  apply div_nonneg
  · apply List.sum_nonneg
    intro x hx
    rcases List.mem_map.mp hx with ⟨d, hd, rfl⟩
    exact sq_nonneg _
  · exact Nat.cast_nonneg _

theorem devSqSum_nonneg (ds : List Nat) : 0 ≤ devSqSum ds := by
  unfold devSqSum
  apply List.sum_nonneg
  intro x hx
  rcases List.mem_map.mp hx with ⟨d, hd, rfl⟩
  exact mul_self_nonneg _

theorem varQ_eq (ds : List Nat) (hn : ds.length ≠ 0) :
    varQ ds = (devSqSum ds : ℚ) / (ds.length : ℚ) ^ 3 := by
  have hnQ : (ds.length : ℚ) ≠ 0 := Nat.cast_ne_zero.mpr hn
  unfold varQ devSqSum
  rw [meanQ_eq]
  generalize hS : ds.sum = S at hnQ ⊢
  generalize hL : ds.length = L at hnQ ⊢
  have hterm : ds.map (fun d : ℕ => ((d : ℚ) - (S : ℚ) / (L : ℚ)) ^ 2) =
      ds.map
        (fun d : ℕ =>
          ((((L : ℤ) * d - (S : ℤ) : ℤ) : ℚ) * (((L : ℤ) * d - (S : ℤ) : ℤ) : ℚ)) *
            ((L : ℚ) ^ 2)⁻¹) := by
    apply List.map_congr_left
    intro d hd
    have hc : (((L : ℤ) * d - (S : ℤ) : ℤ) : ℚ) = (L : ℚ) * (d : ℚ) - (S : ℚ) := by
      push_cast
      ring
    rw [hc]
    field_simp
    ring
  rw [hterm, List.sum_map_mul_right]
  have hsum :
      (ds.map
        (fun d : ℕ =>
          (((L : ℤ) * d - (S : ℤ) : ℤ) : ℚ) * (((L : ℤ) * d - (S : ℤ) : ℤ) : ℚ))).sum =
        (((ds.map (fun di : ℕ => ((L : ℤ) * di - (S : ℤ)) * ((L : ℤ) * di - (S : ℤ)))).sum :
          ℤ) : ℚ) := by
    rw [Int.cast_list_sum, List.map_map]
    refine congrArg List.sum (List.map_congr_left ?_)
    intro d hd
    simp only [Function.comp_apply]
    push_cast
    ring
  rw [hsum]
  generalize (ds.map
    (fun di : ℕ => ((L : ℤ) * di - (S : ℤ)) * ((L : ℤ) * di - (S : ℤ)))).sum = T
  field_simp
  left
  ring

theorem sq_compare_lemma (A N T K : ℝ) (hN : 0 < N) (hT : 0 ≤ T) (hK : 0 ≤ K) :
    K * Real.sqrt (T / N ^ 3) < A / N ↔ 0 < A ∧ K * K * T < A * A * N := by
  have hNne : N ≠ 0 := ne_of_gt hN
  have hV : (0 : ℝ) ≤ T / N ^ 3 := by positivity
  have hKV : 0 ≤ K * Real.sqrt (T / N ^ 3) := mul_nonneg hK (Real.sqrt_nonneg _)
  constructor
  · intro h
    have hAN : 0 < A / N := lt_of_le_of_lt hKV h
    have hA : 0 < A := by
      have h2 : 0 < (A / N) * N := mul_pos hAN hN
      rwa [div_mul_cancel₀ _ hNne] at h2
    refine ⟨hA, ?_⟩
    have hsq : (K * Real.sqrt (T / N ^ 3)) ^ 2 < (A / N) ^ 2 := by
      apply pow_lt_pow_left₀ h hKV
      norm_num
    rw [mul_pow, Real.sq_sqrt hV, div_pow] at hsq
    rw [show K ^ 2 * (T / N ^ 3) = K ^ 2 * T / N ^ 3 from by ring] at hsq
    rw [div_lt_div_iff₀ (by positivity) (by positivity)] at hsq
    have h3 : (K * K * T) * N ^ 2 < (A * A * N) * N ^ 2 := by nlinarith [hsq]
    exact lt_of_mul_lt_mul_right h3 (sq_nonneg N)
  · intro ⟨hA, h2⟩
    have hAN : 0 < A / N := div_pos hA hN
    have hsq : (K * Real.sqrt (T / N ^ 3)) ^ 2 < (A / N) ^ 2 := by
      rw [mul_pow, Real.sq_sqrt hV, div_pow]
      rw [show K ^ 2 * (T / N ^ 3) = K ^ 2 * T / N ^ 3 from by ring]
      rw [div_lt_div_iff₀ (by positivity) (by positivity)]
      nlinarith [h2, pow_pos hN 2]
    exact lt_of_pow_lt_pow_left₀ 2 (le_of_lt hAN) hsq

/-- The executable threshold test equals the floating-point comparison
`degree > mean + k * sqrt(variance)` read over the reals. -/
theorem exceedsThreshold_iff_real (d : Nat) (ds : List Nat) (k : Nat)
    (hn : ds.length ≠ 0) :
    exceedsThreshold d ds k = true ↔
      (meanQ ds : ℝ) + (k : ℝ) * Real.sqrt ((varQ ds : ℚ) : ℝ) < (d : ℝ) := by
  have hnR : (0 : ℝ) < (ds.length : ℝ) := by
    have := Nat.pos_of_ne_zero hn
    exact_mod_cast this
  have hmean : ((meanQ ds : ℚ) : ℝ) = ((ds.sum : ℕ) : ℝ) / ((ds.length : ℕ) : ℝ) := by
    rw [meanQ_eq]
    generalize ds.sum = S
    generalize ds.length = L
    push_cast
    ring
  have hvar : ((varQ ds : ℚ) : ℝ) =
      ((devSqSum ds : ℤ) : ℝ) / ((ds.length : ℕ) : ℝ) ^ 3 := by
    rw [varQ_eq ds hn]
    generalize devSqSum ds = T
    generalize ds.length = L
    push_cast
    ring
  have hTnn : (0 : ℝ) ≤ ((devSqSum ds : ℤ) : ℝ) := by
    have := devSqSum_nonneg ds
    exact_mod_cast this
  unfold exceedsThreshold
  rw [Bool.and_eq_true, decide_eq_true_eq, decide_eq_true_eq]
  rw [hmean, hvar, ← lt_sub_iff_add_lt']
  generalize hT : devSqSum ds = T at hTnn ⊢
  generalize hS : ds.sum = S
  generalize hL : ds.length = L at hnR hn ⊢
  have hNne : ((L : ℕ) : ℝ) ≠ 0 := ne_of_gt hnR
  have hAN : (((L : ℤ) * d - (S : ℤ) : ℤ) : ℝ) / ((L : ℕ) : ℝ) =
      (d : ℝ) - ((S : ℕ) : ℝ) / ((L : ℕ) : ℝ) := by
    push_cast
    field_simp
    ring
  rw [← hAN]
  rw [sq_compare_lemma _ _ _ _ hnR hTnn (by positivity)]
  constructor
  · intro ⟨h1, h2⟩
    refine ⟨by exact_mod_cast h1, ?_⟩
    have h3 : (((k : ℤ) * k * T : ℤ) : ℝ) <
        ((((L : ℤ) * d - (S : ℤ)) * ((L : ℤ) * d - (S : ℤ)) * (L : ℤ) : ℤ) : ℝ) := by
      exact_mod_cast h2
    push_cast at h3 ⊢
    linarith
  · intro ⟨h1, h2⟩
    refine ⟨by exact_mod_cast h1, ?_⟩
    have h3 : (((k : ℤ) * k * T : ℤ) : ℝ) <
        ((((L : ℤ) * d - (S : ℤ)) * ((L : ℤ) * d - (S : ℤ)) * (L : ℤ) : ℤ) : ℝ) := by
      push_cast at h2 ⊢
      linarith
    exact_mod_cast h3

theorem sum_sq_zero {α : Type} (l : List α) (f : α → ℤ)
    (h : (l.map (fun x => f x * f x)).sum = 0) : ∀ x ∈ l, f x = 0 := by
  induction l with
  | nil => simp
  | cons a l ih =>
    rw [List.map_cons, List.sum_cons] at h
    have h1 : 0 ≤ f a * f a := mul_self_nonneg _
    have h2 : 0 ≤ (l.map (fun x => f x * f x)).sum := by
      apply List.sum_nonneg
      intro x hx
      rcases List.mem_map.mp hx with ⟨y, hy, rfl⟩
      exact mul_self_nonneg _
    have ha : f a * f a = 0 := by omega
    have hl : (l.map (fun x => f x * f x)).sum = 0 := by omega
    intro x hx
    rcases List.mem_cons.mp hx with rfl | hx
    · exact mul_self_eq_zero.mp ha
    · exact ih hl x hx

theorem varQ_zero_devSqSum (ds : List Nat) (hn : ds.length ≠ 0) (h : varQ ds = 0) :
    devSqSum ds = 0 := by
  rw [varQ_eq ds hn] at h
  have hL : ((ds.length : ℚ)) ^ 3 ≠ 0 := pow_ne_zero _ (Nat.cast_ne_zero.mpr hn)
  rw [div_eq_zero_iff] at h
  rcases h with h | h
  · exact_mod_cast h
  · exact absurd h hL

theorem exceedsThreshold_of_var_zero (d : Nat) (ds : List Nat) (k : Nat) (hd : d ∈ ds)
    (h0 : devSqSum ds = 0) : exceedsThreshold d ds k = false := by
  have ha : (ds.length : ℤ) * d - (ds.sum : ℤ) = 0 := by
    refine sum_sq_zero ds (fun di : ℕ => (ds.length : ℤ) * di - (ds.sum : ℤ)) ?_ d hd
    exact h0
  show (decide (0 < (ds.length : ℤ) * d - (ds.sum : ℤ)) &&
    decide ((k : ℤ) * k * devSqSum ds <
      ((ds.length : ℤ) * d - (ds.sum : ℤ)) * ((ds.length : ℤ) * d - (ds.sum : ℤ)) *
        ds.length)) = false
  simp only [ha]
  rfl

/-- C4: when every edge endpoint references a listed component, the tier
assigned by detectHubs is `high` exactly when the degree exceeds the
population mean plus two standard deviations, `medium` exactly when it
exceeds mean plus one standard deviation but not the high threshold, and
`normal` otherwise; zero components produce the empty map; zero variance
makes every component `normal`. -/
theorem detectHubs_tier_spec (comps : List DetectedComponent) (edges : List DetectedEdge)
    (hE : ∀ e ∈ edges, e.from_id ∈ comps.map DetectedComponent.id ∧
      e.to_id ∈ comps.map DetectedComponent.id) :
    (comps = [] → detectHubs comps edges = []) ∧
    (∀ cid info, alookup (detectHubs comps edges) cid = some info →
      ((info.tier = HubTier.high ↔
          ((meanQ (hubDegrees comps edges) : ℚ) : ℝ)
            + 2 * Real.sqrt ((varQ (hubDegrees comps edges) : ℚ) : ℝ)
            < (info.degree : ℝ)) ∧
       (info.tier = HubTier.medium ↔
          ¬(((meanQ (hubDegrees comps edges) : ℚ) : ℝ)
              + 2 * Real.sqrt ((varQ (hubDegrees comps edges) : ℚ) : ℝ)
              < (info.degree : ℝ)) ∧
            ((meanQ (hubDegrees comps edges) : ℚ) : ℝ)
              + Real.sqrt ((varQ (hubDegrees comps edges) : ℚ) : ℝ)
              < (info.degree : ℝ)) ∧
       (info.tier = HubTier.normal ↔
          ¬(((meanQ (hubDegrees comps edges) : ℚ) : ℝ)
              + Real.sqrt ((varQ (hubDegrees comps edges) : ℚ) : ℝ)
              < (info.degree : ℝ))))) ∧
    (varQ (hubDegrees comps edges) = 0 →
      ∀ cid info, alookup (detectHubs comps edges) cid = some info →
        info.tier = HubTier.normal) := by
  have hlen_of_lookup : ∀ cid info, alookup (detectHubs comps edges) cid = some info →
      (degreeMapOf comps edges).length ≠ 0 := by
    intro cid info h habs
    unfold detectHubs at h
    rw [if_pos habs] at h
    simp [alookup_nil] at h
  refine ⟨?_, ?_, ?_⟩
  · intro hc
    subst hc
    have hedges : edges = [] := by
      cases hedg : edges with
      | nil => rfl
      | cons e es =>
        have := (hE e (by rw [hedg]; exact List.mem_cons_self _ _)).1
        simp at this
    subst hedges
    rfl
  · intro cid info h
    have hlen := hlen_of_lookup cid info h
    have hlen2 : (hubDegrees comps edges).length ≠ 0 := by
      unfold hubDegrees
      rwa [List.length_map]
    rcases detectHubs_lookup comps edges cid info h with ⟨dv, hdv, hdeg, htier⟩
    have hb2 := exceedsThreshold_iff_real dv (hubDegrees comps edges) 2 hlen2
    have hb1 := exceedsThreshold_iff_real dv (hubDegrees comps edges) 1 hlen2
    norm_num at hb2 hb1
    have hsq : 0 ≤ Real.sqrt ((varQ (hubDegrees comps edges) : ℚ) : ℝ) :=
      Real.sqrt_nonneg _
    have himp : exceedsThreshold dv (hubDegrees comps edges) 2 = true →
        exceedsThreshold dv (hubDegrees comps edges) 1 = true := by
      intro h2
      rw [hb1]
      rw [hb2] at h2
      linarith
    rw [hdeg]
    by_cases he2 : exceedsThreshold dv (hubDegrees comps edges) 2 = true <;>
      by_cases he1 : exceedsThreshold dv (hubDegrees comps edges) 1 = true
    · rw [htier, if_pos he2]
      refine ⟨⟨fun _ => hb2.mp he2, fun _ => rfl⟩, ?_, ?_⟩
      · constructor
        · intro habs
          exact absurd habs (by simp)
        · rintro ⟨habs, -⟩
          exact absurd (hb2.mp he2) habs
      · constructor
        · intro habs
          exact absurd habs (by simp)
        · intro habs
          exact absurd (hb1.mp he1) habs
    · exact absurd (himp he2) he1
    · rw [htier, if_neg he2, if_pos he1]
      refine ⟨?_, ?_, ?_⟩
      · constructor
        · intro habs
          exact absurd habs (by simp)
        · intro habs
          exact absurd (hb2.mpr habs) he2
      · constructor
        · intro _
          exact ⟨fun habs => he2 (hb2.mpr habs), hb1.mp he1⟩
        · intro _
          rfl
      · constructor
        · intro habs
          exact absurd habs (by simp)
        · intro habs
          exact absurd (hb1.mp he1) habs
    · rw [htier, if_neg he2, if_neg he1]
      refine ⟨?_, ?_, ?_⟩
      · constructor
        · intro habs
          exact absurd habs (by simp)
        · intro habs
          exact absurd (hb2.mpr habs) he2
      · constructor
        · intro habs
          exact absurd habs (by simp)
        · rintro ⟨-, habs⟩
          exact absurd (hb1.mpr habs) he1
      · exact ⟨fun _ => fun habs => he1 (hb1.mpr habs), fun _ => rfl⟩
  · intro hvar cid info h
    have hlen := hlen_of_lookup cid info h
    have hlen2 : (hubDegrees comps edges).length ≠ 0 := by
      unfold hubDegrees
      rwa [List.length_map]
    rcases detectHubs_lookup comps edges cid info h with ⟨dv, hdv, hdeg, htier⟩
    have hmem : dv ∈ hubDegrees comps edges := by
      unfold hubDegrees
      exact List.mem_map.mpr ⟨(cid, dv), mem_of_alookup_eq_some _ _ _ hdv, rfl⟩
    have h0 := varQ_zero_devSqSum (hubDegrees comps edges) hlen2 hvar
    have hz2 := exceedsThreshold_of_var_zero dv (hubDegrees comps edges) 2 hmem h0
    have hz1 := exceedsThreshold_of_var_zero dv (hubDegrees comps edges) 1 hmem h0
    rw [htier, if_neg (by rw [hz2]; simp), if_neg (by rw [hz1]; simp)]

/-- A one-component document input for the hub classifier. -/
def wComp : DetectedComponent :=
  { id := "w", name := "W", kind := ComponentKind.service, source := ⟨"s/w.py"⟩ }

/-- The closed witness for C4: a single isolated component has zero variance
and is classified normal. -/
theorem detectHubs_tier_spec_witness :
    (∀ e ∈ ([] : List DetectedEdge), e.from_id ∈ [wComp].map DetectedComponent.id ∧
      e.to_id ∈ [wComp].map DetectedComponent.id) ∧
    varQ (hubDegrees [wComp] []) = 0 ∧
    alookup (detectHubs [wComp] []) "w" = some ⟨HubTier.normal, 0⟩ ∧
    (⟨HubTier.normal, 0⟩ : HubInfo).tier = HubTier.normal := by
  have hzero : varQ (hubDegrees [wComp] []) = 0 := by
    rw [show hubDegrees [wComp] [] = [0] from rfl]
    norm_num [varQ, meanQ]
  refine ⟨by simp, hzero, by decide, ?_⟩
  exact (detectHubs_tier_spec [wComp] [] (by simp)).2.2 hzero "w"
    ⟨HubTier.normal, 0⟩ (by decide)

/-! ## C8: the workflow trace -/

def edgeEndpoints (es : List DetectedEdge) : List String :=
  es.foldr (fun e acc => e.from_id :: e.to_id :: acc) []

theorem length_edgeEndpoints (es : List DetectedEdge) :
    (edgeEndpoints es).length = 2 * es.length := by
  induction es with
  | nil => rfl
  | cons e es ih =>
    unfold edgeEndpoints at ih ⊢
    simp only [List.foldr_cons, List.length_cons, ih]
    omega

theorem mem_addEdgeId_self (ids : List Nat) (i : Nat) : i ∈ addEdgeId ids i := by
  unfold addEdgeId
  by_cases h : ids.contains i = true
  · rw [if_pos h]
    simpa using h
  · rw [if_neg h]
    simp

theorem mem_addEdgeId_of_mem (ids : List Nat) (i j : Nat) (h : j ∈ ids) :
    j ∈ addEdgeId ids i := by
  unfold addEdgeId
  by_cases hc : ids.contains i = true
  · rwa [if_pos hc]
  · rw [if_neg hc]
    exact List.mem_append.mpr (Or.inl h)

theorem mem_addEdgeId_elim (ids : List Nat) (i j : Nat) (h : j ∈ addEdgeId ids i) :
    j ∈ ids ∨ j = i := by
  unfold addEdgeId at h
  by_cases hc : ids.contains i = true
  · rw [if_pos hc] at h
    exact Or.inl h
  · rw [if_neg hc] at h
    rcases List.mem_append.mp h with h | h
    · exact Or.inl h
    · exact Or.inr (List.mem_singleton.mp h)

theorem filter_length_mono {α : Type} (l : List α) (p q : α → Bool)
    (himp : ∀ x ∈ l, p x = true → q x = true) :
    (l.filter p).length ≤ (l.filter q).length := by
  induction l with
  | nil => simp
  | cons x l ih =>
    have ih2 := ih (fun y hy => himp y (List.mem_cons.mpr (Or.inr hy)))
    rw [List.filter_cons, List.filter_cons]
    by_cases hp : p x = true
    · rw [if_pos hp, if_pos (himp x (List.mem_cons_self _ _) hp)]
      simpa using ih2
    · rw [if_neg hp]
      by_cases hq : q x = true
      · rw [if_pos hq]
        simp only [List.length_cons]
        omega
      · rw [if_neg hq]
        exact ih2

theorem filter_length_lt {α : Type} (l : List α) (p q : α → Bool)
    (himp : ∀ x ∈ l, p x = true → q x = true) (a : α) (ha : a ∈ l)
    (hqa : q a = true) (hpa : p a = false) :
    (l.filter p).length < (l.filter q).length := by
  induction l with
  | nil => simp at ha
  | cons x l ih =>
    have himp2 : ∀ y ∈ l, p y = true → q y = true :=
      fun y hy => himp y (List.mem_cons.mpr (Or.inr hy))
    rw [List.filter_cons, List.filter_cons]
    rcases List.mem_cons.mp ha with rfl | ha2
    · rw [hpa]
      simp only [Bool.false_eq_true, if_false, if_pos hqa, List.length_cons]
      have := filter_length_mono l p q himp2
      omega
    · have ihr := ih himp2 ha2
      by_cases hp : p x = true
      · rw [if_pos hp, if_pos (himp x (List.mem_cons_self _ _) hp)]
        simpa using ihr
      · rw [if_neg hp]
        by_cases hq : q x = true
        · rw [if_pos hq]
          simp only [List.length_cons]
          omega
        · rw [if_neg hq]
          exact ihr

/-- Visiting new nodes shrinks the unvisited endpoint count by at least the
number of newly visited nodes. -/
theorem unvisited_drop (eps ns δ : List String) (hnd : δ.Nodup)
    (hδ : ∀ v ∈ δ, v ∈ eps ∧ v ∉ ns) :
    (eps.filter (fun v => !((ns ++ δ).contains v))).length + δ.length ≤
      (eps.filter (fun v => !(ns.contains v))).length := by
  induction δ generalizing ns with
  | nil => simp
  | cons v δ ih =>
    rw [List.nodup_cons] at hnd
    have hv := hδ v (List.mem_cons_self _ _)
    have hstrict : (eps.filter (fun u => !((ns ++ [v]).contains u))).length <
        (eps.filter (fun u => !(ns.contains u))).length := by
      refine filter_length_lt eps (fun u => !((ns ++ [v]).contains u))
        (fun u => !(ns.contains u)) ?_ v hv.1 ?_ ?_
      · intro x hx h
        simp at h ⊢
        tauto
      · simp [hv.2]
      · simp
    have ih2 := ih (ns ++ [v]) hnd.2 ?_
    · have hassoc : ns ++ v :: δ = (ns ++ [v]) ++ δ := by simp
      rw [hassoc]
      simp only [List.length_cons]
      omega
    · intro u hu
      refine ⟨(hδ u (List.mem_cons.mpr (Or.inr hu))).1, ?_⟩
      intro habs
      rcases List.mem_append.mp habs with habs | habs
      · exact (hδ u (List.mem_cons.mpr (Or.inr hu))).2 habs
      · exact hnd.1 ((List.mem_singleton.mp habs) ▸ hu)

theorem traceNeighbor_endpoints (current : String) (e : DetectedEdge) (nb : String)
    (h : traceNeighbor current e = some nb) :
    (e.from_id = current ∧ e.to_id = nb) ∨ (e.to_id = current ∧ e.from_id = nb) := by
  unfold traceNeighbor at h
  by_cases hf : e.from_id = current
  · rw [if_pos hf] at h
    cases h
    exact Or.inl ⟨hf, rfl⟩
  · rw [if_neg hf] at h
    by_cases ht : e.to_id = current
    · rw [if_pos ht] at h
      cases h
      exact Or.inr ⟨ht, rfl⟩
    · rw [if_neg ht] at h
      exact Option.noConfusion h

/-- The three outcomes of one edge visit. -/
theorem traceVisit_eq (current : String) (st : TraceState) (i : Nat) (e : DetectedEdge) :
    (traceVisit current st i e = st ∧
      (traceNeighbor current e = none ∨ traceNeighbor current e = some "")) ∨
    (∃ nb, traceNeighbor current e = some nb ∧ nb ≠ "" ∧ nb ∈ st.nodeIds ∧
      traceVisit current st i e = { st with edgeIds := addEdgeId st.edgeIds i }) ∨
    (∃ nb, traceNeighbor current e = some nb ∧ nb ≠ "" ∧ nb ∉ st.nodeIds ∧
      traceVisit current st i e =
        ⟨st.nodeIds ++ [nb], addEdgeId st.edgeIds i, st.queue ++ [nb]⟩) := by
  cases hnb : traceNeighbor current e with
  | none =>
    have hv : traceVisit current st i e = st := by
      simp only [traceVisit, hnb]
    exact Or.inl ⟨hv, Or.inl rfl⟩
  | some nb =>
    have hv : traceVisit current st i e =
        (if nb.isEmpty = true then st
         else if st.nodeIds.contains nb = true then
           { st with edgeIds := addEdgeId st.edgeIds i }
         else ⟨st.nodeIds ++ [nb], addEdgeId st.edgeIds i, st.queue ++ [nb]⟩) := by
      simp only [traceVisit, hnb]
    by_cases hemp : nb.isEmpty = true
    · refine Or.inl ⟨by rw [hv, if_pos hemp], Or.inr ?_⟩
      rw [(String.isEmpty_iff nb).mp hemp]
    · have hne : nb ≠ "" := fun habs => hemp (by rw [habs]; rfl)
      by_cases hmem : st.nodeIds.contains nb = true
      · exact Or.inr (Or.inl ⟨nb, rfl, hne, by simpa using hmem,
          by rw [hv, if_neg hemp, if_pos hmem]⟩)
      · exact Or.inr (Or.inr ⟨nb, rfl, hne, by simpa using hmem,
          by rw [hv, if_neg hemp, if_neg hmem]⟩)

/-- The inner edge loop: soundness of nodes/edges, queue containment,
monotonicity, the push decomposition, and completeness for the current
node's incident edges. -/
theorem traceScanFrom_spec (fe : List DetectedEdge) (cid current : String)
    (es : List DetectedEdge) :
    ∀ (j : Nat), es = fe.drop j →
    ∀ st : TraceState,
    current ∈ st.nodeIds →
    flowReach fe cid current →
    (∀ v ∈ st.nodeIds, flowReach fe cid v) →
    (∀ v ∈ st.queue, v ∈ st.nodeIds) →
    (∀ i ∈ st.edgeIds, ∃ e, fe.get? i = some e ∧ e.from_id ∈ st.nodeIds ∧
      e.to_id ∈ st.nodeIds) →
    (∀ v ∈ (traceScanFrom current st j es).nodeIds, flowReach fe cid v) ∧
    (∀ v ∈ (traceScanFrom current st j es).queue,
      v ∈ (traceScanFrom current st j es).nodeIds) ∧
    (∀ i ∈ (traceScanFrom current st j es).edgeIds, ∃ e, fe.get? i = some e ∧
      e.from_id ∈ (traceScanFrom current st j es).nodeIds ∧
      e.to_id ∈ (traceScanFrom current st j es).nodeIds) ∧
    (∀ v ∈ st.nodeIds, v ∈ (traceScanFrom current st j es).nodeIds) ∧
    (∀ i ∈ st.edgeIds, i ∈ (traceScanFrom current st j es).edgeIds) ∧
    (∃ δ, (traceScanFrom current st j es).nodeIds = st.nodeIds ++ δ ∧
      (traceScanFrom current st j es).queue = st.queue ++ δ) ∧
    (∀ k e, es.get? k = some e → ∀ nb, traceNeighbor current e = some nb → nb ≠ "" →
      nb ∈ (traceScanFrom current st j es).nodeIds ∧
      (j + k) ∈ (traceScanFrom current st j es).edgeIds) := by
  induction es with
  | nil =>
    intro j hsuf st hcur hreach hns hqs hes
    refine ⟨hns, hqs, hes, fun v hv => hv, fun i hi => hi,
      ⟨[], (List.append_nil st.nodeIds).symm, (List.append_nil st.queue).symm⟩, ?_⟩
    intro k e hk
    simp at hk
  | cons e0 es ih =>
    intro j hsuf st hcur hreach hns hqs hes
    have hj : fe.get? j = some e0 := by
      have h0 : (fe.drop j).get? 0 = fe.get? (j + 0) := by
        simp [List.get?_eq_getElem?, List.getElem?_drop]
      rw [← hsuf] at h0
      simpa using h0.symm
    have hsuf2 : es = fe.drop (j + 1) := by
      have := List.tail_drop fe j
      rw [← hsuf] at this
      simpa using this
    have he0fe : e0 ∈ fe := List.get?_mem hj
    show _
    rw [show traceScanFrom current st j (e0 :: es) =
      traceScanFrom current (traceVisit current st j e0) (j + 1) es from rfl]
    rcases traceVisit_eq current st j e0 with ⟨hveq, hreason⟩ |
      ⟨nb, hnb, hne, hmem, hveq⟩ | ⟨nb, hnb, hne, hmem, hveq⟩
    · rw [hveq]
      rcases ih (j + 1) hsuf2 st hcur hreach hns hqs hes with
        ⟨r1, r2, r3, r4, r5, r6, r7⟩
      refine ⟨r1, r2, r3, r4, r5, r6, ?_⟩
      intro k e hk nb2 hnb2 hne2
      cases k with
      | zero =>
        simp only [List.get?_cons_zero] at hk
        cases hk
        rcases hreason with hr | hr
        · rw [hr] at hnb2
          exact Option.noConfusion hnb2
        · rw [hr] at hnb2
          cases hnb2
          exact absurd rfl hne2
      | succ k =>
        simp only [List.get?_cons_succ] at hk
        have := r7 k e hk nb2 hnb2 hne2
        rwa [show j + (k + 1) = j + 1 + k by omega]
    · rw [hveq]
      have hes2 : ∀ i ∈ (addEdgeId st.edgeIds j), ∃ e, fe.get? i = some e ∧
          e.from_id ∈ st.nodeIds ∧ e.to_id ∈ st.nodeIds := by
        intro i hi
        rcases mem_addEdgeId_elim _ _ _ hi with hi | rfl
        · exact hes i hi
        · refine ⟨e0, hj, ?_⟩
          rcases traceNeighbor_endpoints current e0 nb hnb with ⟨h1, h2⟩ | ⟨h1, h2⟩
          · rw [h1, h2]
            exact ⟨hcur, hmem⟩
          · rw [h1, h2]
            exact ⟨hmem, hcur⟩
      rcases ih (j + 1) hsuf2 { st with edgeIds := addEdgeId st.edgeIds j }
        hcur hreach hns hqs hes2 with ⟨r1, r2, r3, r4, r5, r6, r7⟩
      refine ⟨r1, r2, r3, r4, fun i hi => r5 i (mem_addEdgeId_of_mem _ _ _ hi), r6, ?_⟩
      intro k e hk nb2 hnb2 hne2
      cases k with
      | zero =>
        simp only [List.get?_cons_zero] at hk
        cases hk
        rw [hnb] at hnb2
        cases hnb2
        constructor
        · exact r4 nb hmem
        · have : j + 0 = j := rfl
          rw [this]
          exact r5 j (mem_addEdgeId_self _ _)
      | succ k =>
        simp only [List.get?_cons_succ] at hk
        have := r7 k e hk nb2 hnb2 hne2
        rwa [show j + (k + 1) = j + 1 + k by omega]
    · rw [hveq]
      have hadj : flowAdj fe current nb := by
        rcases traceNeighbor_endpoints current e0 nb hnb with ⟨h1, h2⟩ | ⟨h1, h2⟩
        · exact ⟨e0, he0fe, Or.inl ⟨h1, h2⟩⟩
        · exact ⟨e0, he0fe, Or.inr ⟨h1, h2⟩⟩
      have hreachnb : flowReach fe cid nb := Relation.ReflTransGen.tail hreach hadj
      have hcur2 : current ∈ st.nodeIds ++ [nb] := List.mem_append.mpr (Or.inl hcur)
      have hns2 : ∀ v ∈ st.nodeIds ++ [nb], flowReach fe cid v := by
        intro v hv
        rcases List.mem_append.mp hv with hv | hv
        · exact hns v hv
        · rw [List.mem_singleton.mp hv]
          exact hreachnb
      have hqs2 : ∀ v ∈ st.queue ++ [nb], v ∈ st.nodeIds ++ [nb] := by
        intro v hv
        rcases List.mem_append.mp hv with hv | hv
        · exact List.mem_append.mpr (Or.inl (hqs v hv))
        · exact List.mem_append.mpr (Or.inr hv)
      have hes2 : ∀ i ∈ (addEdgeId st.edgeIds j), ∃ e, fe.get? i = some e ∧
          e.from_id ∈ st.nodeIds ++ [nb] ∧ e.to_id ∈ st.nodeIds ++ [nb] := by
        intro i hi
        rcases mem_addEdgeId_elim _ _ _ hi with hi | rfl
        · rcases hes i hi with ⟨e, he, h1, h2⟩
          exact ⟨e, he, List.mem_append.mpr (Or.inl h1), List.mem_append.mpr (Or.inl h2)⟩
        · refine ⟨e0, hj, ?_⟩
          rcases traceNeighbor_endpoints current e0 nb hnb with ⟨h1, h2⟩ | ⟨h1, h2⟩
          · rw [h1, h2]
            exact ⟨List.mem_append.mpr (Or.inl hcur),
              List.mem_append.mpr (Or.inr (List.mem_singleton.mpr rfl))⟩
          · rw [h1, h2]
            exact ⟨List.mem_append.mpr (Or.inr (List.mem_singleton.mpr rfl)),
              List.mem_append.mpr (Or.inl hcur)⟩
      rcases ih (j + 1) hsuf2 ⟨st.nodeIds ++ [nb], addEdgeId st.edgeIds j,
        st.queue ++ [nb]⟩ hcur2 hreach hns2 hqs2 hes2 with ⟨r1, r2, r3, r4, r5, r6, r7⟩
      refine ⟨r1, r2, r3, ?_, ?_, ?_, ?_⟩
      · intro v hv
        exact r4 v (List.mem_append.mpr (Or.inl hv))
      · intro i hi
        exact r5 i (mem_addEdgeId_of_mem _ _ _ hi)
      · rcases r6 with ⟨δ, hδ1, hδ2⟩
        refine ⟨nb :: δ, ?_, ?_⟩
        · rw [hδ1]
          simp
        · rw [hδ2]
          simp
      · intro k e hk nb2 hnb2 hne2
        cases k with
        | zero =>
          simp only [List.get?_cons_zero] at hk
          cases hk
          rw [hnb] at hnb2
          cases hnb2
          constructor
          · exact r4 nb (List.mem_append.mpr (Or.inr (List.mem_singleton.mpr rfl)))
          · have : j + 0 = j := rfl
            rw [this]
            exact r5 j (mem_addEdgeId_self _ _)
        | succ k =>
          simp only [List.get?_cons_succ] at hk
          have := r7 k e hk nb2 hnb2 hne2
          rwa [show j + (k + 1) = j + 1 + k by omega]

/-- The push decomposition of the inner loop, with distinctness and endpoint
membership of the newly discovered nodes (used for the fuel bound). -/
theorem traceScanFrom_delta (fe : List DetectedEdge) (current : String)
    (es : List DetectedEdge) :
    ∀ (j : Nat) (st : TraceState), (∀ e ∈ es, e ∈ fe) →
    ∃ δ, (traceScanFrom current st j es).nodeIds = st.nodeIds ++ δ ∧
      (traceScanFrom current st j es).queue = st.queue ++ δ ∧
      δ.Nodup ∧ ∀ v ∈ δ, v ∈ edgeEndpoints fe ∧ v ∉ st.nodeIds := by
  induction es with
  | nil =>
    intro j st _
    exact ⟨[], (List.append_nil st.nodeIds).symm, (List.append_nil st.queue).symm,
      List.nodup_nil, by simp⟩
  | cons e0 es ih =>
    intro j st hsub
    have he0 : e0 ∈ fe := hsub e0 (List.mem_cons_self _ _)
    have hsub2 : ∀ e ∈ es, e ∈ fe := fun e he => hsub e (List.mem_cons.mpr (Or.inr he))
    rw [show traceScanFrom current st j (e0 :: es) =
      traceScanFrom current (traceVisit current st j e0) (j + 1) es from rfl]
    rcases traceVisit_eq current st j e0 with ⟨hveq, -⟩ |
      ⟨nb, hnb, hne, hmem, hveq⟩ | ⟨nb, hnb, hne, hmem, hveq⟩
    · rw [hveq]
      exact ih (j + 1) st hsub2
    · rw [hveq]
      rcases ih (j + 1) { st with edgeIds := addEdgeId st.edgeIds j } hsub2 with
        ⟨δ, h1, h2, h3, h4⟩
      exact ⟨δ, h1, h2, h3, h4⟩
    · rw [hveq]
      rcases ih (j + 1) ⟨st.nodeIds ++ [nb], addEdgeId st.edgeIds j, st.queue ++ [nb]⟩
        hsub2 with ⟨δ, h1, h2, h3, h4⟩
      refine ⟨nb :: δ, ?_, ?_, ?_, ?_⟩
      · rw [h1]
        simp
      · rw [h2]
        simp
      · rw [List.nodup_cons]
        refine ⟨?_, h3⟩
        intro habs
        have := (h4 nb habs).2
        exact this (List.mem_append.mpr (Or.inr (List.mem_singleton.mpr rfl)))
      · intro v hv
        rcases List.mem_cons.mp hv with rfl | hv
        · refine ⟨?_, hmem⟩
          rcases traceNeighbor_endpoints current e0 v hnb with ⟨-, h2e⟩ | ⟨-, h2e⟩
          · exact (mem_edgeEndpoints fe v).mpr ⟨e0, he0, Or.inr h2e⟩
          · exact (mem_edgeEndpoints fe v).mpr ⟨e0, he0, Or.inl h2e⟩
        · refine ⟨(h4 v hv).1, ?_⟩
          intro habs
          exact (h4 v hv).2 (List.mem_append.mpr (Or.inl habs))

/-- The BFS loop invariant of traceWorkflow. -/
structure TraceInv (fe : List DetectedEdge) (cid : String) (st : TraceState) : Prop where
  nodes_sound : ∀ v ∈ st.nodeIds, flowReach fe cid v
  queue_sub : ∀ v ∈ st.queue, v ∈ st.nodeIds
  start_mem : cid ∈ st.nodeIds
  closed : ∀ u ∈ st.nodeIds, u ∉ st.queue → ∀ v, flowAdj fe u v → v ∈ st.nodeIds
  edges_sound : ∀ i ∈ st.edgeIds, ∃ e, fe.get? i = some e ∧
    e.from_id ∈ st.nodeIds ∧ e.to_id ∈ st.nodeIds
  edges_complete : ∀ i e, fe.get? i = some e →
    ((e.from_id ∈ st.nodeIds ∧ e.from_id ∉ st.queue) ∨
      (e.to_id ∈ st.nodeIds ∧ e.to_id ∉ st.queue)) → i ∈ st.edgeIds

/-- The while loop maintains the invariant and, given fuel above the measure,
terminates with an empty queue. -/
theorem traceLoop_inv (fe : List DetectedEdge) (cid : String)
    (hne : ∀ e ∈ fe, e.from_id ≠ "" ∧ e.to_id ≠ "") :
    ∀ (fuel : Nat) (st : TraceState), TraceInv fe cid st →
    ((edgeEndpoints fe).filter (fun v => !(st.nodeIds.contains v))).length
      + st.queue.length < fuel →
    TraceInv fe cid (traceLoop fe fuel st) ∧ (traceLoop fe fuel st).queue = [] := by
  intro fuel
  induction fuel with
  | zero =>
    intro st _ hm
    omega
  | succ fuel ih =>
    intro st hinv hm
    cases hq : st.queue with
    | nil =>
      rw [show traceLoop fe (fuel + 1) st = st from by rw [traceLoop, hq]]
      exact ⟨hinv, hq⟩
    | cons current rest =>
      rw [show traceLoop fe (fuel + 1) st =
        traceLoop fe fuel (traceScan fe current { st with queue := rest }) from by
          rw [traceLoop, hq]]
      have hcur : current ∈ st.nodeIds := hinv.queue_sub current (by rw [hq]; simp)
      have hreach : flowReach fe cid current := hinv.nodes_sound current hcur
      have hqs1 : ∀ v ∈ ({ st with queue := rest } : TraceState).queue,
          v ∈ ({ st with queue := rest } : TraceState).nodeIds := by
        intro v hv
        exact hinv.queue_sub v (by rw [hq]; exact List.mem_cons.mpr (Or.inr hv))
      rcases traceScanFrom_spec fe cid current fe 0 (by simp) { st with queue := rest }
        hcur hreach hinv.nodes_sound hqs1 hinv.edges_sound with
        ⟨r1, r2, r3, r4, r5, -, r7⟩
      rcases traceScanFrom_delta fe current fe 0 { st with queue := rest }
        (fun e he => he) with ⟨δ, hδn, hδq, hδnd, hδc⟩
      set st2 := traceScan fe current { st with queue := rest } with hst2
      have hδn2 : st2.nodeIds = st.nodeIds ++ δ := hδn
      have hδq2 : st2.queue = rest ++ δ := hδq
      have hadj_handled : ∀ v, flowAdj fe current v → v ∈ st2.nodeIds := by
        intro v hadj
        rcases hadj with ⟨e, hefe, hdir⟩
        rcases List.mem_iff_get?.mp hefe with ⟨k, hk⟩
        rcases hdir with ⟨h1, h2⟩ | ⟨h1, h2⟩
        · have hnbv : traceNeighbor current e = some v := by
            unfold traceNeighbor
            rw [if_pos h1, h2]
          have hvne : v ≠ "" := by
            rw [← h2]
            exact (hne e hefe).2
          exact (r7 k e (by simpa using hk) v hnbv hvne).1
        · by_cases hf : e.from_id = current
          · have hvcur : v = current := by rw [← h2, hf]
            rw [hvcur, hδn2]
            exact List.mem_append.mpr (Or.inl hcur)
          · have hnbv : traceNeighbor current e = some v := by
              unfold traceNeighbor
              rw [if_neg hf, if_pos h1, h2]
            have hvne : v ≠ "" := by
              rw [← h2]
              exact (hne e hefe).1
            exact (r7 k e (by simpa using hk) v hnbv hvne).1
      have hinv2 : TraceInv fe cid st2 := by
        refine ⟨r1, r2, r4 cid hinv.start_mem, ?_, r3, ?_⟩
        · intro u hu hunq v hadj
          by_cases hcu : u = current
          · subst hcu
            exact hadj_handled v hadj
          · have hu2 : u ∈ st.nodeIds := by
              rw [hδn2] at hu
              rcases List.mem_append.mp hu with hu | hu
              · exact hu
              · exfalso
                apply hunq
                rw [hδq2]
                exact List.mem_append.mpr (Or.inr hu)
            have hunq2 : u ∉ st.queue := by
              rw [hq]
              intro habs
              rcases List.mem_cons.mp habs with habs | habs
              · exact hcu habs
              · exact hunq (by rw [hδq2]; exact List.mem_append.mpr (Or.inl habs))
            have := hinv.closed u hu2 hunq2 v hadj
            rw [hδn2]
            exact List.mem_append.mpr (Or.inl this)
        · intro i e hi hside
          have hproc : ∀ w, w ∈ st2.nodeIds → w ∉ st2.queue → w ≠ current →
              w ∈ st.nodeIds ∧ w ∉ st.queue := by
            intro w hw hwq hwc
            have hw2 : w ∈ st.nodeIds := by
              rw [hδn2] at hw
              rcases List.mem_append.mp hw with hw | hw
              · exact hw
              · exact absurd (by rw [hδq2]; exact List.mem_append.mpr (Or.inr hw)) hwq
            refine ⟨hw2, ?_⟩
            rw [hq]
            intro habs
            rcases List.mem_cons.mp habs with habs | habs
            · exact hwc habs
            · exact hwq (by rw [hδq2]; exact List.mem_append.mpr (Or.inl habs))
          have hcurcase : (e.from_id = current ∨ e.to_id = current) → i ∈ st2.edgeIds := by
            intro hc
            have hnbv : ∃ nb, traceNeighbor current e = some nb ∧ nb ≠ "" := by
              by_cases hf : e.from_id = current
              · refine ⟨e.to_id, ?_, (hne e (List.get?_mem hi)).2⟩
                unfold traceNeighbor
                rw [if_pos hf]
              · rcases hc with hc | hc
                · exact absurd hc hf
                · refine ⟨e.from_id, ?_, (hne e (List.get?_mem hi)).1⟩
                  unfold traceNeighbor
                  rw [if_neg hf, if_pos hc]
            rcases hnbv with ⟨nb, hnb1, hnb2⟩
            have := (r7 i e (by simpa using hi) nb hnb1 hnb2).2
            simpa using this
          rcases hside with ⟨hw, hwq⟩ | ⟨hw, hwq⟩
          · by_cases hwc : e.from_id = current
            · exact hcurcase (Or.inl hwc)
            · rcases hproc e.from_id hw hwq hwc with ⟨h1, h2⟩
              exact r5 i (hinv.edges_complete i e hi (Or.inl ⟨h1, h2⟩))
          · by_cases hwc : e.to_id = current
            · exact hcurcase (Or.inr hwc)
            · rcases hproc e.to_id hw hwq hwc with ⟨h1, h2⟩
              exact r5 i (hinv.edges_complete i e hi (Or.inr ⟨h1, h2⟩))
      have hmeas : ((edgeEndpoints fe).filter (fun v => !(st2.nodeIds.contains v))).length
          + st2.queue.length < fuel := by
        have hdrop := unvisited_drop (edgeEndpoints fe) st.nodeIds δ hδnd
          (fun v hv => hδc v hv)
        have hql : st2.queue.length = rest.length + δ.length := by
          rw [hδq2, List.length_append]
        have hql2 : st.queue.length = rest.length + 1 := by
          rw [hq, List.length_cons]
        rw [hδn2] at *
        omega
      exact ih st2 hinv2 hmeas

/-- C8 (amended): provided no flow edge has an empty-string endpoint,
traceWorkflow returns as nodeIds exactly the connected component of the start
id in the undirected flow-edge subgraph, and as edgeIds exactly the indices
of flow edges with both endpoints in that component. -/
theorem traceWorkflow_spec (schema : SysVistaOutput) (cid : String)
    (hne : ∀ e ∈ schema.edges, isFlowEdge e = true → e.from_id ≠ "" ∧ e.to_id ≠ "") :
    (∀ v, v ∈ (traceWorkflow schema cid).nodeIds ↔
      flowReach (schema.edges.filter isFlowEdge) cid v) ∧
    (∀ i, i ∈ (traceWorkflow schema cid).edgeIds ↔
      ∃ e, (schema.edges.filter isFlowEdge).get? i = some e ∧
        flowReach (schema.edges.filter isFlowEdge) cid e.from_id ∧
        flowReach (schema.edges.filter isFlowEdge) cid e.to_id) := by
  have hne2 : ∀ e ∈ schema.edges.filter isFlowEdge, e.from_id ≠ "" ∧ e.to_id ≠ "" := by
    intro e he
    have h2 := List.mem_filter.mp he
    exact hne e h2.1 h2.2
  have hinv0 : TraceInv (schema.edges.filter isFlowEdge) cid ⟨[cid], [], [cid]⟩ := by
    refine ⟨?_, ?_, ?_, ?_, ?_, ?_⟩
    · intro v hv
      rw [List.mem_singleton.mp hv]
      exact Relation.ReflTransGen.refl
    · intro v hv
      exact hv
    · simp
    · intro u hu hq v hadj
      exact absurd hu hq
    · intro i hi
      simp at hi
    · intro i e hi hside
      exfalso
      rcases hside with ⟨h1, h2⟩ | ⟨h1, h2⟩ <;> exact h2 h1
  have hmeas : ((edgeEndpoints (schema.edges.filter isFlowEdge)).filter
      (fun v => !((([cid] : List String)).contains v))).length
        + ([cid] : List String).length < traceFuel (schema.edges.filter isFlowEdge) := by
    have h1 := List.length_filter_le (fun v => !((([cid] : List String)).contains v))
      (edgeEndpoints (schema.edges.filter isFlowEdge))
    rw [length_edgeEndpoints] at h1
    unfold traceFuel
    simp only [List.length_singleton]
    omega
  rcases traceLoop_inv (schema.edges.filter isFlowEdge) cid hne2
    (traceFuel (schema.edges.filter isFlowEdge)) ⟨[cid], [], [cid]⟩ hinv0 hmeas with
    ⟨hinvF, hqF⟩
  have hw : traceWorkflow schema cid =
      traceLoop (schema.edges.filter isFlowEdge)
        (traceFuel (schema.edges.filter isFlowEdge)) ⟨[cid], [], [cid]⟩ := rfl
  rw [hw]
  have hcomplete : ∀ v, flowReach (schema.edges.filter isFlowEdge) cid v →
      v ∈ (traceLoop (schema.edges.filter isFlowEdge)
        (traceFuel (schema.edges.filter isFlowEdge)) ⟨[cid], [], [cid]⟩).nodeIds := by
    intro v hv
    induction hv with
    | refl => exact hinvF.start_mem
    | tail hab hbc ih2 =>
      refine hinvF.closed _ ih2 ?_ _ hbc
      rw [hqF]
      simp
  refine ⟨fun v => ⟨hinvF.nodes_sound v, hcomplete v⟩, fun i => ⟨?_, ?_⟩⟩
  · intro hi
    rcases hinvF.edges_sound i hi with ⟨e, he, h1, h2⟩
    exact ⟨e, he, hinvF.nodes_sound _ h1, hinvF.nodes_sound _ h2⟩
  · intro ⟨e, he, h1, h2⟩
    apply hinvF.edges_complete i e he
    left
    refine ⟨hcomplete _ h1, ?_⟩
    rw [hqF]
    simp

/-- A document whose only flow edge has an empty-string target id. -/
def emptyEndpointDoc : SysVistaOutput :=
  { components := [], edges := [{ from_id := "x", to_id := "", label := some "handles" }] }

/-- The counterexample to C8 as stated: the empty id "" is in the connected
component of "x" in the flow subgraph, but the BFS skips it (an empty
neighbor string is falsy), so it never appears in nodeIds. -/
theorem traceWorkflow_counterexample :
    flowReach (emptyEndpointDoc.edges.filter isFlowEdge) "x" "" ∧
    "" ∉ (traceWorkflow emptyEndpointDoc "x").nodeIds := by
  constructor
  · refine Relation.ReflTransGen.single
      ⟨{ from_id := "x", to_id := "", label := some "handles" }, ?_, Or.inl ⟨rfl, rfl⟩⟩
    decide
  · decide

/-- The closed witness for C8 (amended): "b" is discovered from "a" along the
flow edge. -/
theorem traceWorkflow_spec_witness :
    (∀ e ∈ flowDoc.edges, isFlowEdge e = true → e.from_id ≠ "" ∧ e.to_id ≠ "") ∧
    "b" ∈ (traceWorkflow flowDoc "a").nodeIds := by
  refine ⟨by decide, ?_⟩
  refine ((traceWorkflow_spec flowDoc "a" (by decide)).1 "b").mpr ?_
  refine Relation.ReflTransGen.single
    ⟨{ from_id := "a", to_id := "b", label := some "persists" }, ?_, Or.inl ⟨rfl, rfl⟩⟩
  decide

end SysVista

